import Mathlib

/-!
# Verification of the bucket-tree container (`src/trie.c`, `src/trie.h`)

Shallow embedding of the burst-trie multiset container for unsigned 16-bit
values.  The C code stores nodes as untagged 64-byte blocks reinterpreted as
one of three shapes; here the three shapes are the three constructors of
`Node`, and the C function `trie__determine_node_type` — which recovers the
shape from `(depth, content)` alone — is embedded as a function on the model
and proved to agree with the constructor on every reachable state.

Modelling notes (each one justified against the C source):
* `uint16_t` values are `Nat`s; every stored value is `< 65536` and this bound
  is carried in the invariants rather than by a wrapped type.
* A `DataNode_t` is its `data[32]` array, a `List Nat` of length 32 in slot
  order (`slots[i]` is `data[i]`).
* A `TravelNode_t` holds eight children `link[0] … link[7]`; the low tag bit
  that `TAG_PTR` sets on each stored pointer makes the `data[0]`
  reinterpretation of a travel node an odd — hence non-zero — 16-bit word,
  which is what `trie__determine_node_type` relies on; `node_slot0` models
  that observable oddness by the value `1`.
* A `CountNode_t` is its `count[8]` array of 64-bit counters.  The insertion
  path asserts a counter never passes `USHRT_MAX = 65535`, so the counters
  never approach 2^64 and are modelled as plain `Nat`s; the failing assert is
  modelled by `Option` (`none` = `assert` abort).
* `number_of_zeros` is a `uint64_t` that is only ever incremented; it is
  modelled as a `Nat`, exactly like the equally wide counters of the
  repository's own reference oracle (`trie.proptest.c`).
-/

namespace BucketTree

/-- `shift_amount` table from trie.c. -/
def shift_amount : List Nat := [13, 10, 7, 4, 1, 0]

/-- `mask_array` table from trie.c (binary literals written in hex). -/
def mask_array : List Nat := [0xE000, 0x1C00, 0x0380, 0x0070, 0x000E, 0x0001]

/-- `MASK_N_BITS`: 3 bits masked per level. -/
def MASK_N_BITS : Nat := 3

/-- `TRIE_MAX_DEPTH` from trie.c. -/
def TRIE_MAX_DEPTH : Nat := 5

/-- `IDX_FROM_VALUE(__val, __depth)`: `(__val & GEN_MASK(__depth)) >> GEN_SHIFT(__depth)`. -/
def IDX_FROM_VALUE (val depth : Nat) : Nat :=
  (val &&& mask_array.getD depth 0) >>> shift_amount.getD depth 0

/-- The three node shapes of `Node_t` (the union in trie.h), as constructors.
`data` carries the 32 `uint16_t` slots, `travel` the 8 child links,
`count` the 8 `uint64_t` counting buckets. -/
inductive Node : Type where
  | data (slots : List Nat)
  | travel (l0 l1 l2 l3 l4 l5 l6 l7 : Node)
  | count (buckets : List Nat)
deriving DecidableEq

/-- `NodeType_t` from trie.c. -/
inductive NodeType : Type where
  | NONE | DATA | TRAVEL | COUNT
deriving DecidableEq

/-- The `uint16_t data[0]` reinterpretation of a node's backing memory.
For a data node it is slot 0.  For a travel node it is the low 16 bits of
`link[0]`, which `TAG_PTR` makes odd, hence non-zero: we model the observable
by `1`.  For a count node it is the low 16 bits of `count[0]` (this case is
only ever read at `TRIE_MAX_DEPTH`, where the classifier ignores it). -/
def node_slot0 : Node → Nat
  | .data slots => slots.getD 0 0
  | .travel _ _ _ _ _ _ _ _ => 1
  | .count buckets => buckets.getD 0 0 % 65536

/-- `trie__determine_node_type`: depth = max ⇒ COUNT; else data[0] = 0 ⇒ DATA
else TRAVEL. -/
def trie__determine_node_type (n : Node) (current_depth : Nat) : NodeType :=
  if current_depth = TRIE_MAX_DEPTH then .COUNT
  else if node_slot0 n = 0 then .DATA else .TRAVEL

/-- `trie__data_node_is_full`: slot 0 non-zero. -/
def trie__data_node_is_full (slots : List Nat) : Bool :=
  slots.getD 0 0 != 0

/-- A freshly `bzero`ed data-node slot array. -/
def empty_data_slots : List Nat := List.replicate 32 0

/-- A freshly `bzero`ed count-node bucket array. -/
def empty_count_buckets : List Nat := List.replicate 8 0

/-- `link[i]` of a travel node (identity on other shapes, which the C code
never reads this way on reachable states). -/
def getLink : Node → Nat → Node
  | .travel l0 l1 l2 l3 l4 l5 l6 l7, i =>
    if i = 0 then l0 else if i = 1 then l1 else if i = 2 then l2
    else if i = 3 then l3 else if i = 4 then l4 else if i = 5 then l5
    else if i = 6 then l6 else l7
  | n, _ => n

/-- Replace `link[i]` of a travel node (identity on other shapes). -/
def setLink : Node → Nat → Node → Node
  | .travel l0 l1 l2 l3 l4 l5 l6 l7, i, x =>
    if i = 0 then .travel x l1 l2 l3 l4 l5 l6 l7
    else if i = 1 then .travel l0 x l2 l3 l4 l5 l6 l7
    else if i = 2 then .travel l0 l1 x l3 l4 l5 l6 l7
    else if i = 3 then .travel l0 l1 l2 x l4 l5 l6 l7
    else if i = 4 then .travel l0 l1 l2 l3 x l5 l6 l7
    else if i = 5 then .travel l0 l1 l2 l3 l4 x l6 l7
    else if i = 6 then .travel l0 l1 l2 l3 l4 l5 x l7
    else .travel l0 l1 l2 l3 l4 l5 l6 x
  | n, _, _ => n

/-- The downward pointer scan shared by the insertion paths: starting at slot
`k` and walking toward slot 0, keep moving while the slot's value satisfies
`cond`; return the index of the first slot that fails `cond` (the loops in
trie.c can never move past slot 0 on a reachable state, see the proofs). -/
def scan_down (slots : List Nat) (cond : Nat → Bool) : Nat → Nat
  | 0 => 0
  | k + 1 => if cond (slots.getD (k + 1) 0) then scan_down slots cond k else k + 1

/-- The scan of `trie_insert_value`'s data-node path:
`while(*current_elemp != 0 && *current_elemp < value) --current_elemp;`
starting at `&data[31]`. -/
def insert_scan (slots : List Nat) (value : Nat) : Nat :=
  scan_down slots (fun x => x != 0 && decide (x < value)) 31

/-- The data-node branch of `trie_insert_value`: scan down from slot 31; if
the stopping slot is empty write the value there, otherwise `memmove` slots
`1..k` down to `0..k-1` and write the value at slot `k`. -/
def trie_data_insert (slots : List Nat) (value : Nat) : List Nat :=
  let k := insert_scan slots value
  if slots.getD k 0 = 0 then slots.set k value
  else (slots.drop 1).take k ++ value :: slots.drop (k + 1)

/-- The inner placement scan of `trie__burst_data_node`'s data branch:
`while(*elem_to_insert_atp != 0 && *elem_to_insert_atp <= *current_elemp)`
starting at `&data[31]` of the child. -/
def place_scan (slots : List Nat) (value : Nat) : Nat :=
  scan_down slots (fun x => x != 0 && decide (x ≤ value)) 31

/-- One placement of the burst redistribution into a data-node child: no
shifting, the value is written over the slot the scan stops at; also returns
the slot index (index 0 is the `node_to_burst` detection in trie.c). -/
def place_no_shift (slots : List Nat) (value : Nat) : List Nat × Nat :=
  let k := place_scan slots value
  (slots.set k value, k)

/-- One step of the count-node redistribution loop of `trie__burst_data_node`:
`++(*trie__get_count_node_bucket(&all_new_nodesp[IDX(v,depth)].count, v))`. -/
def burst_count_step (current_depth : Nat) (slab : List (List Nat)) (v : Nat) :
    List (List Nat) :=
  let c := IDX_FROM_VALUE v current_depth
  let b := slab.getD c []
  let i := IDX_FROM_VALUE v TRIE_MAX_DEPTH
  slab.set c (b.set i (b.getD i 0 + 1))

/-- One step of the data-node redistribution loop of `trie__burst_data_node`:
place the value into child `IDX(v,depth)` and record that child as
`node_to_burst` when the placement landed in its slot 0. -/
def burst_data_step (current_depth : Nat) (s : List (List Nat) × Option Nat) (v : Nat) :
    List (List Nat) × Option Nat :=
  let c := IDX_FROM_VALUE v current_depth
  let r := place_no_shift (s.1.getD c []) v
  (s.1.set c r.1, if r.2 = 0 then some c else s.2)

/-- Pack the 8-slot slab of freshly built children into a travel node
(`((TravelNode_t*)nodep)->link[i] = TAG_PTR(&all_new_nodesp[i])`). -/
def mkTravel (children : List Node) : Node :=
  .travel (children.getD 0 (.data empty_data_slots)) (children.getD 1 (.data empty_data_slots))
    (children.getD 2 (.data empty_data_slots)) (children.getD 3 (.data empty_data_slots))
    (children.getD 4 (.data empty_data_slots)) (children.getD 5 (.data empty_data_slots))
    (children.getD 6 (.data empty_data_slots)) (children.getD 7 (.data empty_data_slots))

/-- The count-node redistribution loop of `trie__burst_data_node` over a
fresh zeroed slab (the C loop walks the slots from `data[31]` down to
`data[0]`, so it receives `slots.reverse`). -/
def burst_count_fold (current_depth : Nat) (vals : List Nat) : List (List Nat) :=
  vals.foldl (burst_count_step current_depth) (List.replicate 8 empty_count_buckets)

/-- The data-node redistribution loop of `trie__burst_data_node` over a fresh
zeroed slab, carrying the `node_to_burst` register (initially `NULL`). -/
def burst_data_fold (current_depth : Nat) (vals : List Nat) :
    List (List Nat) × Option Nat :=
  vals.foldl (burst_data_step current_depth) (List.replicate 8 empty_data_slots, none)

/-- The body of `trie__burst_data_node`, made structurally recursive on the
remaining depth budget `fuel = TRIE_MAX_DEPTH - 1 - current_depth` (which the
recursion of trie.c strictly decreases, so the exhausted-fuel fallback and the
final branch are unreachable; keeping the recursion structural keeps the
function kernel-computable).  Turn a full data node into a travel node over a
slab of 8 fresh zeroed children, redistributing the 32 stored values (the C
loop walks the slots from `data[31]` down to `data[0]`, i.e. `slots.reverse`
in slot order).  At `TRIE_MAX_DEPTH - 1` the children are counting buckets;
otherwise they are data nodes and the single child that may have become full
(`node_to_burst`) is recursively burst at `current_depth + 1`. -/
def burst_rec : Nat → List Nat → Nat → Node
  | fuel, slots, current_depth =>
    if current_depth = TRIE_MAX_DEPTH - 1 then
      mkTravel ((burst_count_fold current_depth slots.reverse).map Node.count)
    else if current_depth < TRIE_MAX_DEPTH - 1 then
      let s := burst_data_fold current_depth slots.reverse
      let children := s.1.map Node.data
      match s.2 with
      | none => mkTravel children
      | some c =>
        match fuel with
        | fuel' + 1 =>
          mkTravel (children.set c (burst_rec fuel' (s.1.getD c []) (current_depth + 1)))
        | 0 => .data slots
    else
      .data slots

/-- `trie__burst_data_node` from trie.c; see `burst_rec` for the body. -/
def trie__burst_data_node (slots : List Nat) (current_depth : Nat) : Node :=
  burst_rec (TRIE_MAX_DEPTH - 1 - current_depth) slots current_depth

/-- The insertion walk of `trie_insert_value` below the zero check: descend
through travel nodes by `IDX_FROM_VALUE`, then either bump a counting bucket
(aborting — `none` — when it already holds `USHRT_MAX = 65535`, the
`assert(*bucket != USHRT_MAX)`) or insert into the data node and burst it if
it has become full.  The C walk dispatches on `trie__determine_node_type`,
which by the classification theorems below agrees with the constructor on
every reachable node. -/
def trie_insert_at : Node → Nat → Nat → Option Node
  | .count buckets, _, value =>
    let i := IDX_FROM_VALUE value TRIE_MAX_DEPTH
    if buckets.getD i 0 = 65535 then none
    else some (.count (buckets.set i (buckets.getD i 0 + 1)))
  | .travel l0 l1 l2 l3 l4 l5 l6 l7, current_depth, value =>
    let i := IDX_FROM_VALUE value current_depth
    if i = 0 then (trie_insert_at l0 (current_depth + 1) value).map
      (fun n => .travel n l1 l2 l3 l4 l5 l6 l7)
    else if i = 1 then (trie_insert_at l1 (current_depth + 1) value).map
      (fun n => .travel l0 n l2 l3 l4 l5 l6 l7)
    else if i = 2 then (trie_insert_at l2 (current_depth + 1) value).map
      (fun n => .travel l0 l1 n l3 l4 l5 l6 l7)
    else if i = 3 then (trie_insert_at l3 (current_depth + 1) value).map
      (fun n => .travel l0 l1 l2 n l4 l5 l6 l7)
    else if i = 4 then (trie_insert_at l4 (current_depth + 1) value).map
      (fun n => .travel l0 l1 l2 l3 n l5 l6 l7)
    else if i = 5 then (trie_insert_at l5 (current_depth + 1) value).map
      (fun n => .travel l0 l1 l2 l3 l4 n l6 l7)
    else if i = 6 then (trie_insert_at l6 (current_depth + 1) value).map
      (fun n => .travel l0 l1 l2 l3 l4 l5 n l7)
    else (trie_insert_at l7 (current_depth + 1) value).map
      (fun n => .travel l0 l1 l2 l3 l4 l5 l6 n)
  | .data slots, current_depth, value =>
    let slots' := trie_data_insert slots value
    some (if trie__data_node_is_full slots' then trie__burst_data_node slots' current_depth
      else .data slots')

/-- `struct sTrie`. -/
structure Trie : Type where
  base_node : Node
  number_of_zeros : Nat
deriving DecidableEq

/-- `trie_init`: a zeroed root node (an empty data node) and a zero counter. -/
def trie_init : Trie := ⟨.data empty_data_slots, 0⟩

/-- `trie_insert_value`: value 0 bumps the root zero counter, any other value
goes down the insertion walk (`none` models the counter-ceiling abort). -/
def trie_insert_value (t : Trie) (value : Nat) : Option Trie :=
  if value = 0 then some { t with number_of_zeros := t.number_of_zeros + 1 }
  else (trie_insert_at t.base_node 0 value).map (fun n => { t with base_node := n })

/-- Insert a whole sequence, left to right, propagating the abort. -/
def trie_insert_list (t : Trie) : List Nat → Option Trie
  | [] => some t
  | v :: vs =>
    match trie_insert_value t v with
    | none => none
    | some t' => trie_insert_list t' vs

/-- `trie__print_count_node`: emit `value` once per unit of the bucket
selected by `IDX_FROM_VALUE(value, TRIE_MAX_DEPTH)`. -/
def trie__print_count_node (buckets : List Nat) (value : Nat) : List Nat :=
  List.replicate (buckets.getD (IDX_FROM_VALUE value TRIE_MAX_DEPTH) 0) value

/-- `trie__print_data_node`: emit the slots from `data[31]` downward while
they are non-zero. -/
def trie__print_data_node (slots : List Nat) : List Nat :=
  slots.reverse.takeWhile (fun x => x != 0)

/-- `trie__print_subtrie`: in-order walk accumulating the value prefix; the
eight travel calls and the two count-node calls mirror trie.c line by line. -/
def trie__print_subtrie : Node → Nat → Nat → List Nat
  | .count buckets, value, _ =>
    trie__print_count_node buckets value ++ trie__print_count_node buckets (value + 1)
  | .data slots, _, _ => trie__print_data_node slots
  | .travel l0 l1 l2 l3 l4 l5 l6 l7, value, depth =>
    trie__print_subtrie l0 (value + (0x0000 >>> (depth * MASK_N_BITS))) (depth + 1) ++
    trie__print_subtrie l1 (value + (0x2000 >>> (depth * MASK_N_BITS))) (depth + 1) ++
    trie__print_subtrie l2 (value + (0x4000 >>> (depth * MASK_N_BITS))) (depth + 1) ++
    trie__print_subtrie l3 (value + (0x6000 >>> (depth * MASK_N_BITS))) (depth + 1) ++
    trie__print_subtrie l4 (value + (0x8000 >>> (depth * MASK_N_BITS))) (depth + 1) ++
    trie__print_subtrie l5 (value + (0xA000 >>> (depth * MASK_N_BITS))) (depth + 1) ++
    trie__print_subtrie l6 (value + (0xC000 >>> (depth * MASK_N_BITS))) (depth + 1) ++
    trie__print_subtrie l7 (value + (0xE000 >>> (depth * MASK_N_BITS))) (depth + 1)

/-- `trie_print_values` as the sequence of printed numbers: the zero counter
first, then the in-order subtrie walk from `(value 0, depth 0)`. -/
def trie_print_values (t : Trie) : List Nat :=
  List.replicate t.number_of_zeros 0 ++ trie__print_subtrie t.base_node 0 0

/-- Rendering of the printed sequence as the exact text `fprintf(fp,"%u ",v)`
produces: each value in decimal followed by one space. -/
def render (vals : List Nat) : String :=
  vals.foldl (fun s v => s ++ toString v ++ " ") ""

/-- The ascending reading of a data node: its occupied values read from slot
31 downward (this is also the order `trie__print_data_node` emits them in). -/
def ascOf (slots : List Nat) : List Nat :=
  slots.reverse.takeWhile (fun x => x != 0)

/-- Rebuild a data node's slot array from its ascending occupied reading:
a contiguous prefix of empty slots followed by the values, largest first. -/
def fromAsc (asc : List Nat) : List Nat :=
  List.replicate (32 - asc.length) 0 ++ asc.reverse

/-- The reference oracle of trie.proptest.c: a 65536-slot occurrence-count
array (`oracle_insert`). -/
def oracle_insert (array : List Nat) (value : Nat) : List Nat :=
  array.set value (array.getD value 0 + 1)

/-- `oracle_init`: `calloc(USHRT_MAX+1, …)`. -/
def oracle_init : List Nat := List.replicate 65536 0

/-- Build the oracle array from an insertion sequence. -/
def oracle_build (vals : List Nat) : List Nat :=
  vals.foldl oracle_insert oracle_init

/-- `oracle_print`: emit every index in ascending order, once per unit of its
count. -/
def oracle_print (array : List Nat) : List Nat :=
  (List.range 65536).flatMap (fun i => List.replicate (array.getD i 0) i)

/-! ## Derived notions used by the specifications -/

/-- Bit width of the value range a node at a given depth is responsible for:
`2 ^ (16 - 3·depth)` (depth 5 keeps the final single bit). -/
def sliceW (depth : Nat) : Nat := 2 ^ (16 - 3 * depth)

/-- Number of occurrences of `v` recorded in the subtree: stored copies in a
data node, the addressed bucket of a count node, and the addressed child of a
travel node. -/
def nodeCount : Node → Nat → Nat → Nat
  | .data slots, _, v => slots.count v
  | .count buckets, _, v => buckets.getD (IDX_FROM_VALUE v TRIE_MAX_DEPTH) 0
  | .travel l0 l1 l2 l3 l4 l5 l6 l7, depth, v =>
    let i := IDX_FROM_VALUE v depth
    if i = 0 then nodeCount l0 (depth + 1) v
    else if i = 1 then nodeCount l1 (depth + 1) v
    else if i = 2 then nodeCount l2 (depth + 1) v
    else if i = 3 then nodeCount l3 (depth + 1) v
    else if i = 4 then nodeCount l4 (depth + 1) v
    else if i = 5 then nodeCount l5 (depth + 1) v
    else if i = 6 then nodeCount l6 (depth + 1) v
    else nodeCount l7 (depth + 1) v

/-- Number of occurrences of `v` stored in the whole container. -/
def trieCount (t : Trie) (v : Nat) : Nat :=
  if v = 0 then t.number_of_zeros else nodeCount t.base_node 0 v

/-- Shape invariant of every reachable node, relative to its depth and the
value prefix `p` fixed by the path from the root:
* a data node holds the `fromAsc` image of an ascending list `asc` of fewer
  than 32 non-zero values of the node's range (so slot 0 is empty: a full
  data node is burst before any operation returns);
* a travel node has its 8 children well-formed one level deeper on the 8
  consecutive sub-ranges;
* a count node sits exactly at `TRIE_MAX_DEPTH`, its buckets never exceed
  65535, buckets 2–7 are zero, and the bucket of value `0` (which only exists
  at prefix 0) is zero because value 0 never enters the tree. -/
inductive NodeWF : Node → Nat → Nat → Prop where
  | data : ∀ (asc : List Nat) (depth p : Nat),
      depth < 5 → p % sliceW depth = 0 → p < 65536 →
      asc.length < 32 → asc.Sorted (· ≤ ·) →
      (∀ v ∈ asc, v ≠ 0 ∧ p ≤ v ∧ v < p + sliceW depth) →
      NodeWF (.data (fromAsc asc)) depth p
  | travel : ∀ (l0 l1 l2 l3 l4 l5 l6 l7 : Node) (depth p : Nat),
      depth < 5 → p % sliceW depth = 0 → p < 65536 →
      NodeWF l0 (depth + 1) (p + 0 * sliceW (depth + 1)) →
      NodeWF l1 (depth + 1) (p + 1 * sliceW (depth + 1)) →
      NodeWF l2 (depth + 1) (p + 2 * sliceW (depth + 1)) →
      NodeWF l3 (depth + 1) (p + 3 * sliceW (depth + 1)) →
      NodeWF l4 (depth + 1) (p + 4 * sliceW (depth + 1)) →
      NodeWF l5 (depth + 1) (p + 5 * sliceW (depth + 1)) →
      NodeWF l6 (depth + 1) (p + 6 * sliceW (depth + 1)) →
      NodeWF l7 (depth + 1) (p + 7 * sliceW (depth + 1)) →
      NodeWF (.travel l0 l1 l2 l3 l4 l5 l6 l7) depth p
  | count : ∀ (buckets : List Nat) (p : Nat),
      p % 2 = 0 → p < 65536 → buckets.length = 8 →
      (∀ i < 8, buckets.getD i 0 ≤ 65535) →
      (∀ i, 2 ≤ i → i < 8 → buckets.getD i 0 = 0) →
      (p = 0 → buckets.getD 0 0 = 0) →
      NodeWF (.count buckets) 5 p

/-- The whole container is well-formed: the root node is well-formed at depth
0 over the full value range. -/
def TrieWF (t : Trie) : Prop := NodeWF t.base_node 0 0

/-- The constructor tag of a node, i.e. its actual shape. -/
def tagOf : Node → NodeType
  | .data _ => .DATA
  | .travel _ _ _ _ _ _ _ _ => .TRAVEL
  | .count _ => .COUNT

/-- The tagless classification is correct throughout a subtree:
`trie__determine_node_type` recovers every node's actual shape from
`(depth, content)` alone. -/
def classify_ok : Node → Nat → Prop
  | .data slots, depth => trie__determine_node_type (.data slots) depth = .DATA
  | .count buckets, depth => trie__determine_node_type (.count buckets) depth = .COUNT
  | .travel l0 l1 l2 l3 l4 l5 l6 l7, depth =>
    trie__determine_node_type (.travel l0 l1 l2 l3 l4 l5 l6 l7) depth = .TRAVEL ∧
    classify_ok l0 (depth + 1) ∧ classify_ok l1 (depth + 1) ∧
    classify_ok l2 (depth + 1) ∧ classify_ok l3 (depth + 1) ∧
    classify_ok l4 (depth + 1) ∧ classify_ok l5 (depth + 1) ∧
    classify_ok l6 (depth + 1) ∧ classify_ok l7 (depth + 1)

/-- Every counting bucket in the subtree is at most `65535` (`USHRT_MAX`). -/
def buckets_le : Node → Prop
  | .data _ => True
  | .count buckets => ∀ i < 8, buckets.getD i 0 ≤ 65535
  | .travel l0 l1 l2 l3 l4 l5 l6 l7 =>
    buckets_le l0 ∧ buckets_le l1 ∧ buckets_le l2 ∧ buckets_le l3 ∧
    buckets_le l4 ∧ buckets_le l5 ∧ buckets_le l6 ∧ buckets_le l7

/-- Buckets 2–7 of every count node in the subtree hold zero. -/
def high_buckets_zero : Node → Prop
  | .data _ => True
  | .count buckets => ∀ i, 2 ≤ i → i < 8 → buckets.getD i 0 = 0
  | .travel l0 l1 l2 l3 l4 l5 l6 l7 =>
    high_buckets_zero l0 ∧ high_buckets_zero l1 ∧ high_buckets_zero l2 ∧
    high_buckets_zero l3 ∧ high_buckets_zero l4 ∧ high_buckets_zero l5 ∧
    high_buckets_zero l6 ∧ high_buckets_zero l7

/-- Slot-level shape of a (non-full) data node as observed in memory: 32
slots, the empty slots (`0`) a contiguous prefix, the occupied slots a
contiguous suffix whose values never increase as the slot index grows
(equivalently: read from slot 31 downward they are ascending). -/
def slots_shaped (slots : List Nat) : Prop :=
  slots.length = 32 ∧
  (∀ i j, i ≤ j → j < 32 → slots.getD i 0 ≠ 0 → slots.getD j 0 ≠ 0) ∧
  (∀ i j, i ≤ j → j < 32 → slots.getD i 0 ≠ 0 → slots.getD j 0 ≠ 0 →
    slots.getD j 0 ≤ slots.getD i 0)

/-- Every data node in the subtree satisfies `slots_shaped`. -/
def data_nodes_shaped : Node → Prop
  | .data slots => slots_shaped slots
  | .count _ => True
  | .travel l0 l1 l2 l3 l4 l5 l6 l7 =>
    data_nodes_shaped l0 ∧ data_nodes_shaped l1 ∧ data_nodes_shaped l2 ∧
    data_nodes_shaped l3 ∧ data_nodes_shaped l4 ∧ data_nodes_shaped l5 ∧
    data_nodes_shaped l6 ∧ data_nodes_shaped l7

/-- The variant of `trie__burst_data_node` that claim C2 describes, with the
recursive burst of the overfull child invoked at `depth + 2` instead of the
`current_depth + 1` found in trie.c; used to refute that reading. -/
def burst_variant_rec : Nat → List Nat → Nat → Node
  | fuel, slots, current_depth =>
    if current_depth = TRIE_MAX_DEPTH - 1 then
      mkTravel ((burst_count_fold current_depth slots.reverse).map Node.count)
    else if current_depth < TRIE_MAX_DEPTH - 1 then
      let s := burst_data_fold current_depth slots.reverse
      let children := s.1.map Node.data
      match s.2 with
      | none => mkTravel children
      | some c =>
        match fuel with
        | fuel' + 1 =>
          mkTravel (children.set c
            (burst_variant_rec fuel' (s.1.getD c []) (current_depth + 2)))
        | 0 => .data slots
    else
      .data slots

/-- Claim C2's reading of the burst recursion, entered with the same depth
budget as `trie__burst_data_node`. -/
def burst_variant_depth2 (slots : List Nat) (current_depth : Nat) : Node :=
  burst_variant_rec (TRIE_MAX_DEPTH - 1 - current_depth) slots current_depth

/-! ## Arithmetic characterization of the addressing function -/

theorem and_div_pow (a b k : Nat) : (a &&& b) / 2 ^ k = (a / 2 ^ k) &&& (b / 2 ^ k) := by
  induction k with
  | zero => simp
  | succ k ih =>
    rw [pow_succ, ← Nat.div_div_eq_div_mul, ih, Nat.and_div_two,
      Nat.div_div_eq_div_mul, Nat.div_div_eq_div_mul, ← pow_succ]

theorem idx0_eq (v : Nat) : IDX_FROM_VALUE v 0 = v / 8192 % 8 := by
  show (v &&& 0xE000) >>> 13 = v / 8192 % 8
  rw [Nat.shiftRight_eq_div_pow, and_div_pow]
  simpa using Nat.and_pow_two_sub_one_eq_mod (v / 8192) 3

theorem idx1_eq (v : Nat) : IDX_FROM_VALUE v 1 = v / 1024 % 8 := by
  show (v &&& 0x1C00) >>> 10 = v / 1024 % 8
  rw [Nat.shiftRight_eq_div_pow, and_div_pow]
  simpa using Nat.and_pow_two_sub_one_eq_mod (v / 1024) 3

theorem idx2_eq (v : Nat) : IDX_FROM_VALUE v 2 = v / 128 % 8 := by
  show (v &&& 0x0380) >>> 7 = v / 128 % 8
  rw [Nat.shiftRight_eq_div_pow, and_div_pow]
  simpa using Nat.and_pow_two_sub_one_eq_mod (v / 128) 3

theorem idx3_eq (v : Nat) : IDX_FROM_VALUE v 3 = v / 16 % 8 := by
  show (v &&& 0x0070) >>> 4 = v / 16 % 8
  rw [Nat.shiftRight_eq_div_pow, and_div_pow]
  simpa using Nat.and_pow_two_sub_one_eq_mod (v / 16) 3

theorem idx4_eq (v : Nat) : IDX_FROM_VALUE v 4 = v / 2 % 8 := by
  show (v &&& 0x000E) >>> 1 = v / 2 % 8
  rw [Nat.shiftRight_eq_div_pow, and_div_pow]
  simpa using Nat.and_pow_two_sub_one_eq_mod (v / 2) 3

theorem idx5_eq (v : Nat) : IDX_FROM_VALUE v 5 = v % 2 := by
  show (v &&& 0x0001) >>> 0 = v % 2
  simp [Nat.and_pow_two_sub_one_eq_mod v 1]

theorem sliceW_val :
    sliceW 0 = 65536 ∧ sliceW 1 = 8192 ∧ sliceW 2 = 1024 ∧ sliceW 3 = 128 ∧
    sliceW 4 = 16 ∧ sliceW 5 = 2 := by
  refine ⟨rfl, rfl, rfl, rfl, rfl, rfl⟩

theorem sliceW_five : sliceW 5 = 2 := rfl

/-- On its value range `[p, p + sliceW d)`, a node at depth `d ≤ 4` routes
`v` to child `i` exactly when `v` lies in the `i`-th eighth of the range. -/
theorem idx_eq_iff (d p v i : Nat) (hd : d ≤ 4) (hal : p % sliceW d = 0)
    (hp : p ≤ v) (hv : v < p + sliceW d) :
    IDX_FROM_VALUE v d = i ↔
      p + i * sliceW (d + 1) ≤ v ∧ v < p + i * sliceW (d + 1) + sliceW (d + 1) := by
  interval_cases d <;>
    simp only [idx0_eq, idx1_eq, idx2_eq, idx3_eq, idx4_eq, sliceW] at * <;>
    norm_num at * <;> omega

/-- Explicit form of the routing index on the node's range. -/
theorem idx_eq_div (d p v : Nat) (hd : d ≤ 4) (hal : p % sliceW d = 0)
    (hp : p ≤ v) (hv : v < p + sliceW d) :
    IDX_FROM_VALUE v d = (v - p) / sliceW (d + 1) := by
  interval_cases d <;>
    simp only [idx0_eq, idx1_eq, idx2_eq, idx3_eq, idx4_eq, sliceW] at * <;>
    norm_num at * <;> omega

theorem idx_lt8 (v d : Nat) : IDX_FROM_VALUE v d < 8 := by
  rcases Nat.lt_or_ge d 6 with h | h
  · interval_cases d <;>
      simp only [idx0_eq, idx1_eq, idx2_eq, idx3_eq, idx4_eq, idx5_eq] <;> omega
  · have h0 : mask_array.getD d 0 = 0 :=
      List.getD_eq_default _ _ (by simp [mask_array]; omega)
    show (v &&& mask_array.getD d 0) >>> shift_amount.getD d 0 < 8
    rw [h0]
    simp

theorem idx5_le1 (v : Nat) : IDX_FROM_VALUE v 5 ≤ 1 := by
  rw [idx5_eq]
  omega

/-- Child prefixes stay aligned one level deeper. -/
theorem aligned_child (d p i : Nat) (hd : d ≤ 4) (hal : p % sliceW d = 0) :
    (p + i * sliceW (d + 1)) % sliceW (d + 1) = 0 := by
  have hdvd : sliceW (d + 1) ∣ sliceW d := by
    apply pow_dvd_pow
    omega
  have hdp : sliceW (d + 1) ∣ p := hdvd.trans (Nat.dvd_of_mod_eq_zero hal)
  rw [Nat.add_mul_mod_self_right]
  exact Nat.mod_eq_zero_of_dvd hdp

/-! ## The downward scans -/

theorem scan_down_spec (slots : List Nat) (cond : Nat → Bool) :
    ∀ k j, j ≤ k → (∀ i, j < i → i ≤ k → cond (slots.getD i 0) = true) →
      cond (slots.getD j 0) = false → scan_down slots cond k = j := by
  intro k
  induction k with
  | zero =>
    intro j hj _ _
    interval_cases j
    rfl
  | succ k ih =>
    intro j hj hall hstop
    by_cases hj' : j = k + 1
    · subst hj'
      simp only [scan_down]
      rw [hstop]
      simp
    · have hjk : j ≤ k := by omega
      have hck : cond (slots.getD (k + 1) 0) = true := hall (k + 1) (by omega) (by omega)
      simp only [scan_down]
      rw [hck]
      simp only [if_true]
      exact ih j hjk (fun i h1 h2 => hall i h1 (by omega)) hstop

/-! ## Basic facts about `fromAsc` -/

theorem fromAsc_length (asc : List Nat) (h : asc.length ≤ 32) :
    (fromAsc asc).length = 32 := by
  simp [fromAsc]
  omega

theorem getD_replicate_zero (m i : Nat) : (List.replicate m (0 : Nat)).getD i 0 = 0 := by
  simp only [List.getD_eq_getElem?_getD, List.getElem?_replicate]
  split <;> rfl

theorem fromAsc_getD_low (asc : List Nat) (i : Nat) (h : i < 32 - asc.length) :
    (fromAsc asc).getD i 0 = 0 := by
  rw [fromAsc, List.getD_append _ _ _ _ (by simpa using h)]
  exact getD_replicate_zero _ _

theorem fromAsc_getD_high (asc : List Nat) (r : Nat) (h : r < asc.length) :
    (fromAsc asc).getD (32 - asc.length + r) 0 = asc.getD (asc.length - 1 - r) 0 := by
  rw [fromAsc, List.getD_append_right _ _ _ _ (by simp)]
  simp only [List.length_replicate, Nat.add_sub_cancel_left]
  rw [List.getD_eq_getElem?_getD, List.getElem?_reverse (by simpa using h),
    ← List.getD_eq_getElem?_getD]

theorem fromAsc_count (asc : List Nat) (v : Nat) (hv : v ≠ 0) (_hle : asc.length ≤ 32) :
    (fromAsc asc).count v = asc.count v := by
  rw [fromAsc, List.count_append, List.count_reverse]
  rcases Nat.eq_zero_or_pos (32 - asc.length) with h | h
  · simp [h]
  · rw [List.count_replicate]
    simp [Ne.symm hv]

theorem getD_mem_of_lt (l : List Nat) (n : Nat) (h : n < l.length) : l.getD n 0 ∈ l := by
  rw [List.getD_eq_getElem _ _ h]
  exact List.getElem_mem h

theorem takeWhile_elem (p : Nat → Bool) :
    ∀ (l : List Nat) (r : Nat), r < (l.takeWhile p).length → p (l.getD r 0) = true := by
  intro l
  induction l with
  | nil => simp
  | cons a l ih =>
    intro r hr
    by_cases ha : p a
    · rcases r with _ | r
      · simpa using ha
      · simp only [List.takeWhile_cons, ha, if_true, List.length_cons] at hr
        simpa using ih r (by simpa using hr)
    · simp [List.takeWhile_cons, ha] at hr

theorem takeWhile_stop (p : Nat → Bool) :
    ∀ l : List Nat, (l.takeWhile p).length < l.length →
      p (l.getD (l.takeWhile p).length 0) = false := by
  intro l
  induction l with
  | nil => simp
  | cons a l ih =>
    intro hlt
    by_cases ha : p a
    · simp only [List.takeWhile_cons, ha, if_true, List.length_cons] at hlt ⊢
      simpa using ih (by simpa using hlt)
    · simp [List.takeWhile_cons, ha]

theorem takeWhile_length_le (p : Nat → Bool) (l : List Nat) :
    (l.takeWhile p).length ≤ l.length :=
  List.Sublist.length_le (List.takeWhile_sublist p)

/-! ## The two data-node insertion procedures, on `fromAsc` form -/

theorem replicate_set_last (m : Nat) (v : Nat) :
    (List.replicate (m + 1) (0 : Nat)).set m v = List.replicate m 0 ++ [v] := by
  induction m with
  | zero => rfl
  | succ m ih =>
    show (0 :: List.replicate (m + 1) (0 : Nat)).set (m + 1) v = 0 :: (List.replicate m 0 ++ [v])
    rw [List.set_cons_succ, ih]

/-- Writing into the empty slot directly below the occupied suffix appends the
value to the ascending reading. -/
theorem fromAsc_set_last (asc : List Nat) (value : Nat) (hlen : asc.length < 32) :
    (fromAsc asc).set (31 - asc.length) value = fromAsc (asc ++ [value]) := by
  rw [fromAsc, List.set_append_left _ _ (by simp; omega)]
  have hrepl : 32 - asc.length = (31 - asc.length) + 1 := by omega
  rw [hrepl, replicate_set_last, List.append_assoc, fromAsc]
  simp only [List.length_append, List.length_cons, List.length_nil, List.reverse_append,
    List.reverse_cons, List.reverse_nil, List.nil_append, List.singleton_append]
  congr 1
  · congr 1
    omega

/-- The burst placement (`place_no_shift`) on a node holding `asc`, when every
stored value is `≤ value`: the scan walks over the whole occupied suffix,
stops at the empty slot `31 - asc.length` just below it, and fills it. -/
theorem place_no_shift_fromAsc (asc : List Nat) (value : Nat) (hlen : asc.length < 32)
    (hnz : ∀ x ∈ asc, x ≠ 0) (hle : ∀ x ∈ asc, x ≤ value) :
    place_no_shift (fromAsc asc) value = (fromAsc (asc ++ [value]), 31 - asc.length) := by
  have hscan : place_scan (fromAsc asc) value = 31 - asc.length := by
    apply scan_down_spec
    · omega
    · intro i h1 h2
      have hi : i = (32 - asc.length) + (i - (32 - asc.length)) := by omega
      rw [hi, fromAsc_getD_high asc _ (by omega)]
      have hm : asc.getD (asc.length - 1 - (i - (32 - asc.length))) 0 ∈ asc :=
        getD_mem_of_lt _ _ (by omega)
      simp only [Bool.and_eq_true, bne_iff_ne, ne_eq, decide_eq_true_eq]
      exact ⟨hnz _ hm, hle _ hm⟩
    · rw [fromAsc_getD_low asc _ (by omega)]
      rfl
  rw [place_no_shift, hscan, fromAsc_set_last asc value hlen]

/-- The sorted-placement path of `trie_insert_value` on a node holding `asc`:
it computes exactly an ordered insertion into the ascending reading.  (No
sortedness hypothesis is needed: the scan stops at the first stored value
`≥ value` read from slot 31 downward, which is where `orderedInsert` puts the
new value in the ascending reading.) -/
theorem trie_data_insert_fromAsc (asc : List Nat) (value : Nat) (hlen : asc.length < 32)
    (hnz : ∀ x ∈ asc, x ≠ 0) (_hv : value ≠ 0) :
    trie_data_insert (fromAsc asc) value =
      fromAsc (asc.orderedInsert (· ≤ ·) value) := by
  set q : Nat → Bool := fun b => decide (b < value) with hq
  set t : Nat := (asc.takeWhile q).length with ht
  have htle : t ≤ asc.length := takeWhile_length_le q asc
  have hoi : asc.orderedInsert (· ≤ ·) value =
      asc.takeWhile q ++ value :: asc.dropWhile q := by
    have h := List.orderedInsert_eq_take_drop (· ≤ ·) value asc
    simpa using h
  have hsplit : asc = asc.takeWhile q ++ asc.dropWhile q :=
    (List.takeWhile_append_dropWhile q asc).symm
  have hdroplen : (asc.dropWhile q).length = asc.length - t := by
    have h := congrArg List.length hsplit
    simp only [List.length_append] at h
    omega
  have hscan : insert_scan (fromAsc asc) value = 31 - t := by
    apply scan_down_spec
    · omega
    · intro i h1 h2
      have hi : i = (32 - asc.length) + (i - (32 - asc.length)) := by omega
      rw [hi, fromAsc_getD_high asc _ (by omega)]
      have hidx : asc.length - 1 - (i - (32 - asc.length)) < t := by omega
      have hqx := takeWhile_elem q asc _ hidx
      have hm : asc.getD (asc.length - 1 - (i - (32 - asc.length))) 0 ∈ asc :=
        getD_mem_of_lt _ _ (by omega)
      rw [hq] at hqx
      simp only [decide_eq_true_eq] at hqx
      simp only [Bool.and_eq_true, bne_iff_ne, ne_eq, decide_eq_true_eq]
      exact ⟨hnz _ hm, hqx⟩
    · by_cases hfull : t = asc.length
      · rw [fromAsc_getD_low asc _ (by omega)]
        rfl
      · have h31 : 31 - t = (32 - asc.length) + (asc.length - 1 - t) := by omega
        rw [h31, fromAsc_getD_high asc _ (by omega)]
        have hidx : asc.length - 1 - (asc.length - 1 - t) = t := by omega
        rw [hidx]
        have hqx := takeWhile_stop q asc (by omega)
        rw [hq] at hqx
        simp only [decide_eq_false_iff_not, not_lt] at hqx
        simp only [Bool.and_eq_false_iff]
        right
        simpa using hqx
  rw [trie_data_insert, hscan]
  by_cases hfull : t = asc.length
  · -- every stored value is < value: the scan reached the empty slot
    have hB : asc.dropWhile q = [] := by
      have hL : (asc.dropWhile q).length = 0 := by omega
      simpa using hL
    have hA : asc.takeWhile q = asc := by
      conv_rhs => rw [hsplit]
      rw [hB, List.append_nil]
    simp only [hfull]
    rw [if_pos (by rw [fromAsc_getD_low asc _ (by omega)])]
    rw [fromAsc_set_last asc value hlen, hoi, hA, hB]
  · -- the scan stopped on the first stored value ≥ value: shift and insert
    have hstop0 : asc.getD t 0 ≠ 0 :=
      hnz _ (getD_mem_of_lt _ _ (by omega))
    have hstople : value ≤ asc.getD t 0 := by
      have hqx := takeWhile_stop q asc (by omega)
      rw [hq] at hqx
      simpa only [decide_eq_false_iff_not, not_lt] using hqx
    have hgd : (fromAsc asc).getD (31 - t) 0 = asc.getD t 0 := by
      have h31 : 31 - t = (32 - asc.length) + (asc.length - 1 - t) := by omega
      rw [h31, fromAsc_getD_high asc _ (by omega)]
      congr 1
      omega
    rw [if_neg (by rw [hgd]; exact hstop0)]
    have hd : fromAsc asc =
        List.replicate (32 - asc.length) 0 ++
          ((asc.dropWhile q).reverse ++ (asc.takeWhile q).reverse) := by
      rw [fromAsc]
      congr 1
      conv_lhs => rw [hsplit]
      rw [List.reverse_append]
    have htake : ((fromAsc asc).drop 1).take (31 - t) =
        List.replicate (32 - asc.length - 1) 0 ++ (asc.dropWhile q).reverse := by
      rw [hd]
      have hcons : List.replicate (32 - asc.length) (0 : Nat) =
          0 :: List.replicate (32 - asc.length - 1) 0 := by
        rw [← List.replicate_succ]
        congr 1
        omega
      rw [hcons]
      simp only [List.cons_append, List.drop_succ_cons, List.drop_zero]
      rw [← List.append_assoc]
      apply List.take_left'
      rw [List.length_append, List.length_replicate, List.length_reverse, hdroplen]
      omega
    have hdrop : (fromAsc asc).drop (31 - t + 1) = (asc.takeWhile q).reverse := by
      rw [hd, ← List.append_assoc]
      apply List.drop_left'
      rw [List.length_append, List.length_replicate, List.length_reverse, hdroplen]
      omega
    rw [htake, hdrop, hoi, fromAsc]
    simp only [List.reverse_append, List.reverse_cons, List.length_append, List.length_cons,
      List.append_assoc, List.cons_append, List.singleton_append]
    congr 2
    omega

/-! ## The redistribution loops of `trie__burst_data_node` -/

theorem getD_set_self' {α : Type} (l : List α) (i : Nat) (x d : α) (h : i < l.length) :
    (l.set i x).getD i d = x := by
  simp [List.getD_eq_getElem?_getD, List.getElem?_set_self h]

theorem getD_set_ne' {α : Type} (l : List α) (i j : Nat) (x d : α) (h : i ≠ j) :
    (l.set i x).getD j d = l.getD j d := by
  simp [List.getD_eq_getElem?_getD, List.getElem?_set_ne h]

theorem getD_replicate' {α : Type} (x d : α) (n i : Nat) (h : i < n) :
    (List.replicate n x).getD i d = x := by
  simp [List.getD_eq_getElem?_getD, List.getElem?_replicate, h]

theorem empty_data_slots_eq : empty_data_slots = fromAsc [] := by
  simp [fromAsc, empty_data_slots]

theorem burst_count_fold_spec (d : Nat) (vals : List Nat) :
    (burst_count_fold d vals).length = 8 ∧
    ∀ c, c < 8 → ((burst_count_fold d vals).getD c []).length = 8 ∧
      ∀ i, i < 8 → ((burst_count_fold d vals).getD c []).getD i 0 =
        (vals.filter (fun w => IDX_FROM_VALUE w d = c ∧
          IDX_FROM_VALUE w TRIE_MAX_DEPTH = i)).length := by
  induction vals using List.reverseRecOn with
  | nil =>
    refine ⟨by simp [burst_count_fold], ?_⟩
    intro c hc
    rw [burst_count_fold]
    simp only [List.foldl_nil]
    rw [getD_replicate' _ _ _ _ hc]
    refine ⟨by simp [empty_count_buckets], ?_⟩
    intro i hi
    rw [empty_count_buckets, getD_replicate' _ _ _ _ hi]
    simp
  | append_singleton pre v ih =>
    obtain ⟨ihlen, ihc⟩ := ih
    have hstep : burst_count_fold d (pre ++ [v]) =
        burst_count_step d (burst_count_fold d pre) v := by
      rw [burst_count_fold, burst_count_fold, List.foldl_append]
      simp
    have hcv : IDX_FROM_VALUE v d < 8 := idx_lt8 v d
    have hiv : IDX_FROM_VALUE v TRIE_MAX_DEPTH < 8 :=
      lt_of_le_of_lt (idx5_le1 v) (by omega)
    obtain ⟨hblen, hbget⟩ := ihc (IDX_FROM_VALUE v d) hcv
    constructor
    · rw [hstep, burst_count_step]
      simpa using ihlen
    · intro c hc
      rw [hstep, burst_count_step]
      by_cases hcc : IDX_FROM_VALUE v d = c
      · subst hcc
        rw [getD_set_self' _ _ _ _ (by omega)]
        refine ⟨by simpa using hblen, ?_⟩
        intro i hi
        by_cases hii : IDX_FROM_VALUE v TRIE_MAX_DEPTH = i
        · subst hii
          rw [getD_set_self' _ _ _ _ (by omega)]
          rw [List.filter_append, hbget _ hiv]
          simp
        · rw [getD_set_ne' _ _ _ _ _ hii, hbget _ hi, List.filter_append]
          simp [hii]
      · rw [getD_set_ne' _ _ _ _ _ hcc]
        obtain ⟨hl, hg⟩ := ihc c hc
        refine ⟨hl, ?_⟩
        intro i hi
        rw [hg _ hi, List.filter_append]
        have : ¬ (IDX_FROM_VALUE v d = c ∧
            IDX_FROM_VALUE v TRIE_MAX_DEPTH = i) := by tauto
        simp [this]

theorem burst_data_fold_spec (d : Nat) (vals : List Nat)
    (hsort : vals.Sorted (· ≤ ·)) (hnz : ∀ x ∈ vals, x ≠ 0)
    (hlen : vals.length ≤ 32) :
    (burst_data_fold d vals).1.length = 8 ∧
    (∀ c, c < 8 → (burst_data_fold d vals).1.getD c [] =
      fromAsc (vals.filter (fun w => IDX_FROM_VALUE w d = c))) ∧
    (((burst_data_fold d vals).2 = none ∧
        ∀ c, c < 8 → (vals.filter (fun w => IDX_FROM_VALUE w d = c)).length < 32) ∨
      (∃ c, c < 8 ∧ (burst_data_fold d vals).2 = some c ∧
        (vals.filter (fun w => IDX_FROM_VALUE w d = c)).length = 32 ∧
        vals.length = 32)) := by
  induction vals using List.reverseRecOn with
  | nil =>
    refine ⟨by simp [burst_data_fold], ?_, Or.inl ⟨by simp [burst_data_fold], ?_⟩⟩
    · intro c hc
      rw [burst_data_fold]
      simp only [List.foldl_nil, List.filter_nil]
      rw [getD_replicate' _ _ _ _ hc, empty_data_slots_eq]
    · intro c hc
      simp
  | append_singleton pre v ih =>
    have hsort' : pre.Sorted (· ≤ ·) :=
      ((List.pairwise_append.mp hsort).1)
    have hle : ∀ x ∈ pre, x ≤ v := by
      intro x hx
      exact (List.pairwise_append.mp hsort).2.2 x hx v (by simp)
    have hnz' : ∀ x ∈ pre, x ≠ 0 := fun x hx => hnz x (by simp [hx])
    have hprelen : pre.length ≤ 31 := by
      have := congrArg List.length (rfl : pre ++ [v] = pre ++ [v])
      simp only [List.length_append, List.length_cons, List.length_nil] at hlen ⊢
      omega
    obtain ⟨ihlen, ihget, ihd⟩ := ih hsort' hnz' (by omega)
    have hntb : (burst_data_fold d pre).2 = none ∧
        ∀ c, c < 8 → (pre.filter (fun w => IDX_FROM_VALUE w d = c)).length < 32 := by
      rcases ihd with h | ⟨c, _, _, _, habs⟩
      · exact h
      · omega
    have hstep : burst_data_fold d (pre ++ [v]) =
        burst_data_step d (burst_data_fold d pre) v := by
      rw [burst_data_fold, burst_data_fold, List.foldl_append]
      simp
    have hcv : IDX_FROM_VALUE v d < 8 := idx_lt8 v d
    set c0 : Nat := IDX_FROM_VALUE v d with hc0
    set fpre : List Nat := pre.filter (fun w => IDX_FROM_VALUE w d = c0) with hfpre
    have hflen : fpre.length ≤ 31 := le_trans (List.length_filter_le _ _) hprelen
    have hplace : place_no_shift (fromAsc fpre) v = (fromAsc (fpre ++ [v]), 31 - fpre.length) :=
      place_no_shift_fromAsc fpre v (by omega)
        (fun x hx => hnz' x (List.mem_of_mem_filter hx))
        (fun x hx => hle x (List.mem_of_mem_filter hx))
    have hunfold1 : (burst_data_step d (burst_data_fold d pre) v).1 =
        (burst_data_fold d pre).1.set c0
          (place_no_shift ((burst_data_fold d pre).1.getD c0 []) v).1 := rfl
    have hunfold2 : (burst_data_step d (burst_data_fold d pre) v).2 =
        if (place_no_shift ((burst_data_fold d pre).1.getD c0 []) v).2 = 0
        then some c0 else (burst_data_fold d pre).2 := rfl
    have h1 : (burst_data_fold d (pre ++ [v])).1 =
        (burst_data_fold d pre).1.set c0 (fromAsc (fpre ++ [v])) := by
      rw [hstep, hunfold1, ihget c0 hcv, ← hfpre, hplace]
    have h2 : (burst_data_fold d (pre ++ [v])).2 =
        if 31 - fpre.length = 0 then some c0 else (burst_data_fold d pre).2 := by
      rw [hstep, hunfold2, ihget c0 hcv, ← hfpre, hplace]
    have hfilter_self : (pre ++ [v]).filter (fun w => IDX_FROM_VALUE w d = c0) =
        fpre ++ [v] := by
      rw [List.filter_append, ← hfpre]
      congr 1
      simp [← hc0]
    have hfilter_ne : ∀ c, c ≠ c0 →
        (pre ++ [v]).filter (fun w => IDX_FROM_VALUE w d = c) =
          pre.filter (fun w => IDX_FROM_VALUE w d = c) := by
      intro c hne
      rw [List.filter_append]
      have : (IDX_FROM_VALUE v d = c) = False := by
        simp [← hc0, Ne.symm hne]
      simp [this]
    refine ⟨?_, ?_, ?_⟩
    · rw [h1]
      simpa using ihlen
    · intro c hc
      by_cases hcc : c = c0
      · subst hcc
        rw [h1, getD_set_self' _ _ _ _ (by omega), hfilter_self]
      · rw [h1, getD_set_ne' _ _ _ _ _ (Ne.symm hcc), ihget c hc, hfilter_ne c hcc]
    · by_cases hful : fpre.length = 31
      · right
        refine ⟨c0, hcv, ?_, ?_, ?_⟩
        · rw [h2, if_pos (by omega)]
        · rw [hfilter_self]
          simp only [List.length_append, List.length_cons, List.length_nil]
          omega
        · have hp31 : 31 ≤ pre.length := by
            rw [hfpre] at hful
            have := List.length_filter_le (fun w => IDX_FROM_VALUE w d = c0) pre
            omega
          simp only [List.length_append, List.length_cons, List.length_nil]
          omega
      · left
        refine ⟨?_, ?_⟩
        · rw [h2, if_neg (by omega), hntb.1]
        · intro c hc
          by_cases hcc : c = c0
          · subst hcc
            rw [hfilter_self]
            simp only [List.length_append, List.length_cons, List.length_nil]
            omega
          · rw [hfilter_ne c hcc]
            exact hntb.2 c hc

/-! ## Helpers for travel nodes built from a slab -/

theorem getD_map_fn (f : List Nat → Node) (slab : List (List Nat)) (c : Nat)
    (dfl : Node) (hc : c < slab.length) :
    (slab.map f).getD c dfl = f (slab.getD c []) := by
  simp only [List.getD_eq_getElem?_getD, List.getElem?_map]
  rw [List.getElem?_eq_getElem hc]
  simp

theorem getLink_mkTravel (children : List Node) (c : Nat) (hc : c < 8) :
    getLink (mkTravel children) c = children.getD c (.data empty_data_slots) := by
  interval_cases c <;> rfl

theorem nodeCount_travel_link (l0 l1 l2 l3 l4 l5 l6 l7 : Node) (depth w : Nat) :
    nodeCount (.travel l0 l1 l2 l3 l4 l5 l6 l7) depth w =
      nodeCount (getLink (.travel l0 l1 l2 l3 l4 l5 l6 l7) (IDX_FROM_VALUE w depth))
        (depth + 1) w := by
  simp only [nodeCount, getLink]
  split_ifs <;> rfl

theorem nodeCount_mkTravel (children : List Node) (depth w : Nat) :
    nodeCount (mkTravel children) depth w =
      nodeCount (children.getD (IDX_FROM_VALUE w depth) (.data empty_data_slots))
        (depth + 1) w := by
  rw [mkTravel, nodeCount_travel_link, ← mkTravel,
    getLink_mkTravel _ _ (idx_lt8 w depth)]

theorem NodeWF_mkTravel (children : List Node) (depth p : Nat)
    (hd : depth < 5) (hal : p % sliceW depth = 0) (hp : p < 65536)
    (h : ∀ c, c < 8 → NodeWF (children.getD c (.data empty_data_slots)) (depth + 1)
      (p + c * sliceW (depth + 1))) :
    NodeWF (mkTravel children) depth p := by
  exact NodeWF.travel _ _ _ _ _ _ _ _ depth p hd hal hp
    (h 0 (by omega)) (h 1 (by omega)) (h 2 (by omega)) (h 3 (by omega))
    (h 4 (by omega)) (h 5 (by omega)) (h 6 (by omega)) (h 7 (by omega))

theorem sliceW_pos (d : Nat) : 0 < sliceW d := Nat.pos_pow_of_pos _ (by omega)

/-- An aligned prefix's whole range fits below 65536. -/
theorem range_end (d p : Nat) (hd : d ≤ 5) (hal : p % sliceW d = 0) (hp : p < 65536) :
    p + sliceW d ≤ 65536 := by
  have hdvd : sliceW d ∣ 65536 := by
    have h16 : (65536 : Nat) = 2 ^ 16 := by norm_num
    rw [h16]
    apply pow_dvd_pow
    omega
  have hdp : sliceW d ∣ p := Nat.dvd_of_mod_eq_zero hal
  have hsub : sliceW d ∣ (65536 - p) := Nat.dvd_sub' hdvd hdp
  have hpos : 0 < 65536 - p := by omega
  have := Nat.le_of_dvd hpos hsub
  omega

/-- Eight consecutive child ranges tile the parent range. -/
theorem sliceW_succ (d : Nat) (hd : d ≤ 4) : sliceW d = 8 * sliceW (d + 1) := by
  interval_cases d <;> rfl

theorem fromAsc_full_reverse (asc : List Nat) (h : asc.length = 32) :
    (fromAsc asc).reverse = asc := by
  simp [fromAsc, h]

theorem count_eq_filter_len (l : List Nat) (w : Nat) :
    l.count w = (l.filter (fun u => u = w)).length := by
  induction l with
  | nil => rfl
  | cons a l ih =>
    by_cases h : a = w
    · subst h
      simp [List.count_cons, List.filter_cons, ih]
    · simp [List.count_cons, List.filter_cons, h, ih]

/-- `trie__burst_data_node` at `TRIE_MAX_DEPTH - 1`: the children are count
nodes; the result is well-formed and preserves every multiplicity. -/
theorem burst_spec_count (p : Nat) (asc : List Nat)
    (hal : p % sliceW 4 = 0) (hp : p < 65536)
    (hmem : ∀ v ∈ asc, v ≠ 0 ∧ p ≤ v ∧ v < p + sliceW 4)
    (hlen : asc.length = 32) :
    NodeWF (trie__burst_data_node (fromAsc asc) 4) 4 p ∧
    ∀ w, w ≠ 0 → p ≤ w → w < p + sliceW 4 →
      nodeCount (trie__burst_data_node (fromAsc asc) 4) 4 w = asc.count w := by
  have hs16 : sliceW 4 = 16 := rfl
  have hburst : trie__burst_data_node (fromAsc asc) 4 =
      mkTravel ((burst_count_fold 4 asc).map Node.count) := by
    rw [trie__burst_data_node, burst_rec, fromAsc_full_reverse asc hlen]
    rfl
  obtain ⟨hslen, hbspec⟩ := burst_count_fold_spec 4 asc
  have hre := range_end 4 p (by norm_num) hal hp
  have halmod : p % 16 = 0 := by rw [← hs16]; exact hal
  constructor
  · rw [hburst]
    apply NodeWF_mkTravel _ 4 p (by omega) hal hp
    intro c hc
    rw [getD_map_fn Node.count _ _ _ (by omega)]
    obtain ⟨hblen, hbget⟩ := hbspec c hc
    have hs5 : sliceW (4 + 1) = 2 := rfl
    apply NodeWF.count
    · have := aligned_child 4 p c (by norm_num) hal
      rwa [sliceW_five] at this
    · rw [hs5]
      omega
    · exact hblen
    · intro i hi
      rw [hbget i hi]
      have := List.length_filter_le
        (fun w => decide (IDX_FROM_VALUE w 4 = c ∧ IDX_FROM_VALUE w TRIE_MAX_DEPTH = i)) asc
      omega
    · intro i h2 h8
      rw [hbget i h8]
      have hnil : asc.filter (fun w => decide (IDX_FROM_VALUE w 4 = c ∧
          IDX_FROM_VALUE w TRIE_MAX_DEPTH = i)) = [] := by
        rw [List.filter_eq_nil_iff]
        intro a _
        have h5 := idx5_le1 a
        simp only [decide_eq_true_eq, not_and]
        intro _
        show ¬ IDX_FROM_VALUE a 5 = i
        omega
      rw [hnil]
      rfl
    · intro hzero
      rw [hs5] at hzero
      have hc0 : p = 0 ∧ c = 0 := by omega
      rw [hbget 0 (by omega)]
      have hnil : asc.filter (fun w => decide (IDX_FROM_VALUE w 4 = c ∧
          IDX_FROM_VALUE w TRIE_MAX_DEPTH = 0)) = [] := by
        rw [List.filter_eq_nil_iff]
        intro a ha
        obtain ⟨ha0, hap, haW⟩ := hmem a ha
        have h4 := idx4_eq a
        have h5 := idx5_eq a
        simp only [decide_eq_true_eq, not_and]
        intro hia
        show ¬ IDX_FROM_VALUE a 5 = 0
        rw [h4] at hia
        rw [h5]
        omega
      rw [hnil]
      rfl
  · intro w hw0 hwp hwW
    rw [hburst, nodeCount_mkTravel,
      getD_map_fn Node.count _ _ _ (by rw [hslen]; exact idx_lt8 w 4)]
    obtain ⟨hblen, hbget⟩ := hbspec (IDX_FROM_VALUE w 4) (idx_lt8 w 4)
    show ((burst_count_fold 4 asc).getD (IDX_FROM_VALUE w 4) []).getD
      (IDX_FROM_VALUE w TRIE_MAX_DEPTH) 0 = asc.count w
    have h5lt : IDX_FROM_VALUE w TRIE_MAX_DEPTH < 8 :=
      lt_of_le_of_lt (idx5_le1 w) (by omega)
    rw [hbget _ h5lt, count_eq_filter_len]
    congr 1
    apply List.filter_congr
    intro u hu
    obtain ⟨hu0, hup, huW⟩ := hmem u hu
    have h4u := idx4_eq u
    have h5u := idx5_eq u
    have h4w := idx4_eq w
    have h5w := idx5_eq w
    show (decide (IDX_FROM_VALUE u 4 = IDX_FROM_VALUE w 4 ∧
      IDX_FROM_VALUE u 5 = IDX_FROM_VALUE w 5)) = decide (u = w)
    apply decide_eq_decide.mpr
    rw [h4u, h5u, h4w, h5w]
    omega

theorem child_prefix_lt (depth p c : Nat) (h4 : depth ≤ 4)
    (hal : p % sliceW depth = 0) (hp : p < 65536) (hc : c < 8) :
    p + c * sliceW (depth + 1) < 65536 := by
  have hre := range_end depth p (by omega) hal hp
  have hsucc := sliceW_succ depth h4
  have hWpos := sliceW_pos (depth + 1)
  have hmul : c * sliceW (depth + 1) ≤ 7 * sliceW (depth + 1) :=
    Nat.mul_le_mul_right _ (by omega)
  omega

theorem burst_unfold_none (slots : List Nat) (depth : Nat) (h4 : depth < 4)
    (hn : (burst_data_fold depth slots.reverse).2 = none) :
    trie__burst_data_node slots depth =
      mkTravel ((burst_data_fold depth slots.reverse).1.map Node.data) := by
  rw [trie__burst_data_node, burst_rec,
    if_neg (show ¬ depth = TRIE_MAX_DEPTH - 1 by show ¬ depth = 4; omega),
    if_pos (show depth < TRIE_MAX_DEPTH - 1 by show depth < 4; omega)]
  dsimp only
  split
  · rfl
  · next c heq =>
    rw [hn] at heq
    cases heq

theorem burst_unfold_some (slots : List Nat) (depth c : Nat) (h4 : depth < 4)
    (hs : (burst_data_fold depth slots.reverse).2 = some c) :
    trie__burst_data_node slots depth =
      mkTravel (((burst_data_fold depth slots.reverse).1.map Node.data).set c
        (trie__burst_data_node ((burst_data_fold depth slots.reverse).1.getD c [])
          (depth + 1))) := by
  have hf : TRIE_MAX_DEPTH - 1 - depth = (TRIE_MAX_DEPTH - 1 - (depth + 1)) + 1 := by
    show 4 - depth = (4 - (depth + 1)) + 1
    omega
  rw [trie__burst_data_node, hf, burst_rec,
    if_neg (show ¬ depth = TRIE_MAX_DEPTH - 1 by show ¬ depth = 4; omega),
    if_pos (show depth < TRIE_MAX_DEPTH - 1 by show depth < 4; omega)]
  dsimp only
  split
  · next heq =>
    rw [hs] at heq
    cases heq
  · next c' heq =>
    rw [hs] at heq
    cases heq
    rfl

/-- Full burst specification, by induction on the remaining depth budget:
bursting a full, well-ranged, sorted data node yields a well-formed travel
node and preserves every multiplicity in the node's range. -/
theorem burst_spec_aux (fuel : Nat) :
    ∀ (depth p : Nat) (asc : List Nat), 4 - depth ≤ fuel → depth < 5 →
      p % sliceW depth = 0 → p < 65536 →
      asc.Sorted (· ≤ ·) →
      (∀ v ∈ asc, v ≠ 0 ∧ p ≤ v ∧ v < p + sliceW depth) →
      asc.length = 32 →
      NodeWF (trie__burst_data_node (fromAsc asc) depth) depth p ∧
      ∀ w, w ≠ 0 → p ≤ w → w < p + sliceW depth →
        nodeCount (trie__burst_data_node (fromAsc asc) depth) depth w = asc.count w := by
  induction fuel with
  | zero =>
    intro depth p asc hfuel hd hal hp hsort hmem hlen
    have h4 : depth = 4 := by omega
    subst h4
    exact burst_spec_count p asc hal hp hmem hlen
  | succ fuel ih =>
    intro depth p asc hfuel hd hal hp hsort hmem hlen
    by_cases h4 : depth = 4
    · subst h4
      exact burst_spec_count p asc hal hp hmem hlen
    · have hlt4 : depth < 4 := by omega
      have hnz : ∀ x ∈ asc, x ≠ 0 := fun x hx => (hmem x hx).1
      obtain ⟨hslen, hget, hdisj⟩ := burst_data_fold_spec depth asc hsort hnz (by omega)
      have hrev : (fromAsc asc).reverse = asc := fromAsc_full_reverse asc hlen
      have hre : p + sliceW depth ≤ 65536 := range_end depth p (by omega) hal hp
      have hsucc : sliceW depth = 8 * sliceW (depth + 1) := sliceW_succ depth (by omega)
      have hWpos : 0 < sliceW (depth + 1) := sliceW_pos _
      rcases hdisj with ⟨hnone, hsmall⟩ | ⟨c, hc8, hsome, hfull, _⟩
      · -- no child became full: all children are plain data nodes
        have hform := burst_unfold_none (fromAsc asc) depth hlt4 (by rw [hrev]; exact hnone)
        rw [hrev] at hform
        constructor
        · rw [hform]
          apply NodeWF_mkTravel _ depth p hd hal hp
          intro c hc
          rw [getD_map_fn Node.data _ _ _ (by omega), hget c hc]
          apply NodeWF.data
          · omega
          · exact aligned_child depth p c (by omega) hal
          · exact child_prefix_lt depth p c (by omega) hal hp hc
          · exact hsmall c hc
          · exact List.Pairwise.filter _ hsort
          · intro v hv
            have hvasc : v ∈ asc := List.mem_of_mem_filter hv
            have hidx : IDX_FROM_VALUE v depth = c := by
              have := List.of_mem_filter hv
              simpa using this
            obtain ⟨hv0, hvp, hvW⟩ := hmem v hvasc
            have := (idx_eq_iff depth p v c (by omega) hal hvp hvW).mp hidx
            exact ⟨hv0, this.1, this.2⟩
        · intro w hw0 hwp hwW
          rw [hform, nodeCount_mkTravel,
            getD_map_fn Node.data _ _ _ (by rw [hslen]; exact idx_lt8 w depth),
            hget _ (idx_lt8 w depth)]
          show ((fromAsc (asc.filter fun u => IDX_FROM_VALUE u depth =
            IDX_FROM_VALUE w depth)).count w) = asc.count w
          rw [fromAsc_count _ _ hw0
            (le_trans (List.length_filter_le _ _) (by omega))]
          exact List.count_filter (by simp)
      · -- one child got all 32 values and is recursively burst
        have hfc : asc.filter (fun w => IDX_FROM_VALUE w depth = c) = asc :=
          List.Sublist.eq_of_length (List.filter_sublist _) (by omega)
        have hallc : ∀ v ∈ asc, IDX_FROM_VALUE v depth = c := by
          intro v hv
          have hv' : v ∈ asc.filter (fun w => IDX_FROM_VALUE w depth = c) := by
            rw [hfc]
            exact hv
          simpa using List.of_mem_filter hv'
        have hform := burst_unfold_some (fromAsc asc) depth c hlt4
          (by rw [hrev]; exact hsome)
        rw [hrev] at hform
        have hgetc : (burst_data_fold depth asc).1.getD c [] = fromAsc asc := by
          rw [hget c hc8, hfc]
        have hmemc : ∀ v ∈ asc, v ≠ 0 ∧ p + c * sliceW (depth + 1) ≤ v ∧
            v < (p + c * sliceW (depth + 1)) + sliceW (depth + 1) := by
          intro v hv
          obtain ⟨hv0, hvp, hvW⟩ := hmem v hv
          have := (idx_eq_iff depth p v c (by omega) hal hvp hvW).mp (hallc v hv)
          exact ⟨hv0, this.1, this.2⟩
        obtain ⟨hwfc, hcntc⟩ := ih (depth + 1) (p + c * sliceW (depth + 1)) asc
          (by omega) (by omega)
          (aligned_child depth p c (by omega) hal)
          (child_prefix_lt depth p c (by omega) hal hp hc8)
          hsort hmemc hlen
        rw [hgetc] at hform
        constructor
        · rw [hform]
          apply NodeWF_mkTravel _ depth p hd hal hp
          intro c' hc'
          by_cases hcc : c' = c
          · subst hcc
            rw [getD_set_self' _ _ _ _ (by rw [List.length_map, hslen]; exact hc')]
            exact hwfc
          · rw [getD_set_ne' _ _ _ _ _ (Ne.symm hcc),
              getD_map_fn Node.data _ _ _ (by omega), hget c' hc']
            have hnil : asc.filter (fun w => IDX_FROM_VALUE w depth = c') = [] := by
              rw [List.filter_eq_nil_iff]
              intro a ha
              simp only [decide_eq_true_eq]
              rw [hallc a ha]
              exact Ne.symm hcc
            rw [hnil]
            apply NodeWF.data
            · omega
            · exact aligned_child depth p c' (by omega) hal
            · exact child_prefix_lt depth p c' (by omega) hal hp hc'
            · simp
            · simp
            · simp
        · intro w hw0 hwp hwW
          rw [hform, nodeCount_mkTravel]
          by_cases hcw : IDX_FROM_VALUE w depth = c
          · rw [hcw, getD_set_self' _ _ _ _ (by rw [List.length_map, hslen]; exact hc8)]
            have hrange := (idx_eq_iff depth p w c (by omega) hal hwp hwW).mp hcw
            exact hcntc w hw0 hrange.1 hrange.2
          · rw [getD_set_ne' _ _ _ _ _ (Ne.symm hcw),
              getD_map_fn Node.data _ _ _ (by rw [hslen]; exact idx_lt8 w depth),
              hget _ (idx_lt8 w depth)]
            have hnil : asc.filter (fun u => IDX_FROM_VALUE u depth =
                IDX_FROM_VALUE w depth) = [] := by
              rw [List.filter_eq_nil_iff]
              intro a ha
              simp only [decide_eq_true_eq]
              rw [hallc a ha]
              exact fun h => hcw h.symm
            rw [hnil]
            show (fromAsc []).count w = asc.count w
            rw [fromAsc_count _ _ hw0 (by simp)]
            have hwnot : w ∉ asc := by
              intro hw
              exact hcw (hallc w hw)
            rw [List.count_eq_zero_of_not_mem hwnot]
            rfl

/-- Burst specification at the depths where insertion can trigger it. -/
theorem burst_spec (depth p : Nat) (asc : List Nat) (hd : depth < 5)
    (hal : p % sliceW depth = 0) (hp : p < 65536)
    (hsort : asc.Sorted (· ≤ ·))
    (hmem : ∀ v ∈ asc, v ≠ 0 ∧ p ≤ v ∧ v < p + sliceW depth)
    (hlen : asc.length = 32) :
    NodeWF (trie__burst_data_node (fromAsc asc) depth) depth p ∧
    ∀ w, w ≠ 0 → p ≤ w → w < p + sliceW depth →
      nodeCount (trie__burst_data_node (fromAsc asc) depth) depth w = asc.count w :=
  burst_spec_aux 4 depth p asc (by omega) hd hal hp hsort hmem hlen

/-! ## Uniform handling of the eight travel links -/

theorem idx_cases8 (v d : Nat) : IDX_FROM_VALUE v d = 0 ∨ IDX_FROM_VALUE v d = 1 ∨
    IDX_FROM_VALUE v d = 2 ∨ IDX_FROM_VALUE v d = 3 ∨ IDX_FROM_VALUE v d = 4 ∨
    IDX_FROM_VALUE v d = 5 ∨ IDX_FROM_VALUE v d = 6 ∨ IDX_FROM_VALUE v d = 7 := by
  have := idx_lt8 v d
  omega

theorem insert_at_travel (l0 l1 l2 l3 l4 l5 l6 l7 : Node) (depth value : Nat) :
    trie_insert_at (.travel l0 l1 l2 l3 l4 l5 l6 l7) depth value =
      (trie_insert_at
        (getLink (.travel l0 l1 l2 l3 l4 l5 l6 l7) (IDX_FROM_VALUE value depth))
        (depth + 1) value).map
        (setLink (.travel l0 l1 l2 l3 l4 l5 l6 l7) (IDX_FROM_VALUE value depth)) := by
  rcases idx_cases8 value depth with h|h|h|h|h|h|h|h <;>
    simp only [trie_insert_at, getLink, setLink, h] <;> norm_num <;>
    exact congrArg₂ Option.map (funext fun n => by simp [setLink]) rfl

theorem NodeWF_setLink (l0 l1 l2 l3 l4 l5 l6 l7 : Node) (depth p i : Nat) (x : Node)
    (hwf : NodeWF (.travel l0 l1 l2 l3 l4 l5 l6 l7) depth p) (hi : i < 8)
    (hx : NodeWF x (depth + 1) (p + i * sliceW (depth + 1))) :
    NodeWF (setLink (.travel l0 l1 l2 l3 l4 l5 l6 l7) i x) depth p := by
  cases hwf with
  | travel _ _ _ _ _ _ _ _ _ _ hd hal hp h0 h1 h2 h3 h4 h5 h6 h7 =>
    have hc : i = 0 ∨ i = 1 ∨ i = 2 ∨ i = 3 ∨ i = 4 ∨ i = 5 ∨ i = 6 ∨ i = 7 := by omega
    rcases hc with h|h|h|h|h|h|h|h <;> subst h <;> simp only [setLink, reduceIte] <;>
      first
      | exact NodeWF.travel _ _ _ _ _ _ _ _ depth p hd hal hp
          hx h1 h2 h3 h4 h5 h6 h7
      | exact NodeWF.travel _ _ _ _ _ _ _ _ depth p hd hal hp
          h0 hx h2 h3 h4 h5 h6 h7
      | exact NodeWF.travel _ _ _ _ _ _ _ _ depth p hd hal hp
          h0 h1 hx h3 h4 h5 h6 h7
      | exact NodeWF.travel _ _ _ _ _ _ _ _ depth p hd hal hp
          h0 h1 h2 hx h4 h5 h6 h7
      | exact NodeWF.travel _ _ _ _ _ _ _ _ depth p hd hal hp
          h0 h1 h2 h3 hx h5 h6 h7
      | exact NodeWF.travel _ _ _ _ _ _ _ _ depth p hd hal hp
          h0 h1 h2 h3 h4 hx h6 h7
      | exact NodeWF.travel _ _ _ _ _ _ _ _ depth p hd hal hp
          h0 h1 h2 h3 h4 h5 hx h7
      | exact NodeWF.travel _ _ _ _ _ _ _ _ depth p hd hal hp
          h0 h1 h2 h3 h4 h5 h6 hx

theorem nodeCount_setLink (l0 l1 l2 l3 l4 l5 l6 l7 : Node) (depth w i : Nat) (x : Node)
    (hi : i < 8) :
    nodeCount (setLink (.travel l0 l1 l2 l3 l4 l5 l6 l7) i x) depth w =
      if IDX_FROM_VALUE w depth = i then nodeCount x (depth + 1) w
      else nodeCount (.travel l0 l1 l2 l3 l4 l5 l6 l7) depth w := by
  have hc : i = 0 ∨ i = 1 ∨ i = 2 ∨ i = 3 ∨ i = 4 ∨ i = 5 ∨ i = 6 ∨ i = 7 := by omega
  rcases hc with h|h|h|h|h|h|h|h <;> subst h <;>
    rcases idx_cases8 w depth with hw|hw|hw|hw|hw|hw|hw|hw <;>
      simp [setLink, nodeCount, hw]

theorem nodeCount_getLink_idx (l0 l1 l2 l3 l4 l5 l6 l7 : Node) (depth w : Nat) :
    nodeCount (.travel l0 l1 l2 l3 l4 l5 l6 l7) depth w =
      nodeCount (getLink (.travel l0 l1 l2 l3 l4 l5 l6 l7) (IDX_FROM_VALUE w depth))
        (depth + 1) w :=
  nodeCount_travel_link l0 l1 l2 l3 l4 l5 l6 l7 depth w

theorem NodeWF_getLink (l0 l1 l2 l3 l4 l5 l6 l7 : Node) (depth p i : Nat)
    (hwf : NodeWF (.travel l0 l1 l2 l3 l4 l5 l6 l7) depth p) (hi : i < 8) :
    NodeWF (getLink (.travel l0 l1 l2 l3 l4 l5 l6 l7) i) (depth + 1)
      (p + i * sliceW (depth + 1)) := by
  cases hwf with
  | travel _ _ _ _ _ _ _ _ _ _ hd hal hp h0 h1 h2 h3 h4 h5 h6 h7 =>
    have hc : i = 0 ∨ i = 1 ∨ i = 2 ∨ i = 3 ∨ i = 4 ∨ i = 5 ∨ i = 6 ∨ i = 7 := by omega
    rcases hc with h|h|h|h|h|h|h|h <;> subst h <;> simp only [getLink] <;>
      first
      | simpa using h0 | simpa using h1 | simpa using h2 | simpa using h3
      | simpa using h4 | simpa using h5 | simpa using h6 | simpa using h7

/-! ## Specification of the insertion walk -/

theorem data_full_iff (asc : List Nat) (hnz : ∀ x ∈ asc, x ≠ 0) (hlen : asc.length ≤ 32) :
    trie__data_node_is_full (fromAsc asc) = true ↔ asc.length = 32 := by
  rw [trie__data_node_is_full]
  constructor
  · intro h
    by_contra hne
    rw [fromAsc_getD_low asc 0 (by omega)] at h
    simp at h
  · intro h
    have h0 : (fromAsc asc).getD 0 0 = asc.getD 31 0 := by
      have := fromAsc_getD_high asc 0 (by omega)
      simpa [h] using this
    rw [h0]
    have hm : asc.getD 31 0 ∈ asc := getD_mem_of_lt _ _ (by omega)
    simpa using hnz _ hm

theorem NodeWF_data_inv (slots : List Nat) (depth p : Nat)
    (h : NodeWF (.data slots) depth p) :
    ∃ asc : List Nat, slots = fromAsc asc ∧ depth < 5 ∧ p % sliceW depth = 0 ∧
      p < 65536 ∧ asc.length < 32 ∧ asc.Sorted (· ≤ ·) ∧
      ∀ v ∈ asc, v ≠ 0 ∧ p ≤ v ∧ v < p + sliceW depth := by
  cases h
  exact ⟨_, rfl, by assumption, by assumption, by assumption, by assumption,
    by assumption, by assumption⟩

theorem NodeWF_count_inv (buckets : List Nat) (depth p : Nat)
    (h : NodeWF (.count buckets) depth p) :
    depth = 5 ∧ p % 2 = 0 ∧ p < 65536 ∧ buckets.length = 8 ∧
      (∀ i < 8, buckets.getD i 0 ≤ 65535) ∧
      (∀ i, 2 ≤ i → i < 8 → buckets.getD i 0 = 0) ∧
      (p = 0 → buckets.getD 0 0 = 0) := by
  cases h
  exact ⟨rfl, by assumption, by assumption, by assumption, by assumption,
    by assumption, by assumption⟩

theorem insert_at_spec (n : Node) : ∀ (depth p value : Nat),
    NodeWF n depth p → value ≠ 0 → p ≤ value → value < p + sliceW depth →
    (trie_insert_at n depth value = none ↔ nodeCount n depth value = 65535) ∧
    ∀ n', trie_insert_at n depth value = some n' →
      NodeWF n' depth p ∧
      ∀ w, w ≠ 0 → p ≤ w → w < p + sliceW depth →
        nodeCount n' depth w = nodeCount n depth w + (if w = value then 1 else 0) := by
  induction n with
  | data slots =>
    intro depth p value hwf hv0 hvp hvW
    obtain ⟨asc, rfl, h5, hal, hp, hlen, hsort, hmem⟩ := NodeWF_data_inv _ _ _ hwf
    have hnz : ∀ x ∈ asc, x ≠ 0 := fun x hx => (hmem x hx).1
    have hins := trie_data_insert_fromAsc asc value hlen hnz hv0
    have hlen' : (asc.orderedInsert (· ≤ ·) value).length = asc.length + 1 :=
      List.orderedInsert_length (· ≤ ·) asc value
    have hsort' : (asc.orderedInsert (· ≤ ·) value).Sorted (· ≤ ·) :=
      List.Sorted.orderedInsert value asc hsort
    have hmem' : ∀ v ∈ asc.orderedInsert (· ≤ ·) value,
        v ≠ 0 ∧ p ≤ v ∧ v < p + sliceW depth := by
      intro v hv
      rcases (List.mem_orderedInsert (· ≤ ·)).mp hv with h | h
      · subst h
        exact ⟨hv0, hvp, hvW⟩
      · exact hmem v h
    have hcnt' : ∀ w, (asc.orderedInsert (· ≤ ·) value).count w =
        asc.count w + (if w = value then 1 else 0) := by
      intro w
      rw [(List.perm_orderedInsert (· ≤ ·) value asc).count_eq, List.count_cons]
      by_cases h : w = value
      · simp [h]
      · simp [h, Ne.symm h]
    have hcnt_node : nodeCount (.data (fromAsc asc)) depth value = asc.count value := by
      simp only [nodeCount]
      exact fromAsc_count asc value hv0 (by omega)
    have hcnt_small : asc.count value < 32 :=
      lt_of_le_of_lt (List.count_le_length value asc) hlen
    constructor
    · constructor
      · intro h
        simp [trie_insert_at] at h
      · intro h
        rw [hcnt_node] at h
        omega
    · intro n' hn'
      have hn'' : n' = if trie__data_node_is_full (trie_data_insert (fromAsc asc) value)
          then trie__burst_data_node (trie_data_insert (fromAsc asc) value) depth
          else .data (trie_data_insert (fromAsc asc) value) := by
        have h := hn'
        simp only [trie_insert_at] at h
        exact (Option.some.inj h).symm
      rw [hins] at hn''
      by_cases hful : (asc.orderedInsert (· ≤ ·) value).length = 32
      · rw [if_pos ((data_full_iff _ (fun x hx => (hmem' x hx).1) (by omega)).mpr hful)]
          at hn''
        subst hn''
        obtain ⟨hwfb, hcntb⟩ :=
          burst_spec depth p (asc.orderedInsert (· ≤ ·) value) h5 hal hp hsort' hmem' hful
        refine ⟨hwfb, ?_⟩
        intro w hw0 hwp hwW
        rw [hcntb w hw0 hwp hwW, hcnt' w]
        simp only [nodeCount]
        rw [fromAsc_count asc w hw0 (by omega)]
      · rw [if_neg (fun hcon => hful
            ((data_full_iff _ (fun x hx => (hmem' x hx).1) (by omega)).mp hcon))]
          at hn''
        subst hn''
        constructor
        · exact NodeWF.data _ depth p h5 hal hp (by omega) hsort' hmem'
        · intro w hw0 hwp hwW
          simp only [nodeCount]
          rw [fromAsc_count _ w hw0 (by omega), fromAsc_count asc w hw0 (by omega),
            hcnt' w]
  | count buckets =>
    intro depth p value hwf hv0 hvp hvW
    obtain ⟨h5, hpar, hp, hblen, hble, hbhigh, hbz⟩ := NodeWF_count_inv _ _ _ hwf
    subst h5
    have hs2 : sliceW 5 = 2 := rfl
    rw [hs2] at hvW
    have hi5 : IDX_FROM_VALUE value TRIE_MAX_DEPTH = value % 2 := idx5_eq value
    have hi5lt : IDX_FROM_VALUE value TRIE_MAX_DEPTH < 8 := by
      rw [hi5]
      omega
    have hstep : trie_insert_at (.count buckets) 5 value =
        if buckets.getD (IDX_FROM_VALUE value TRIE_MAX_DEPTH) 0 = 65535 then none
        else some (.count (buckets.set (IDX_FROM_VALUE value TRIE_MAX_DEPTH)
          (buckets.getD (IDX_FROM_VALUE value TRIE_MAX_DEPTH) 0 + 1))) := rfl
    have hcn : nodeCount (.count buckets) 5 value =
        buckets.getD (IDX_FROM_VALUE value TRIE_MAX_DEPTH) 0 := rfl
    constructor
    · constructor
      · intro hnone
        rw [hstep] at hnone
        by_cases hb : buckets.getD (IDX_FROM_VALUE value TRIE_MAX_DEPTH) 0 = 65535
        · rw [hcn]
          exact hb
        · rw [if_neg hb] at hnone
          cases hnone
      · intro hcnt
        rw [hcn] at hcnt
        rw [hstep, if_pos hcnt]
    · intro n' hn'
      rw [hstep] at hn'
      by_cases hb : buckets.getD (IDX_FROM_VALUE value TRIE_MAX_DEPTH) 0 = 65535
      · rw [if_pos hb] at hn'
        cases hn'
      · rw [if_neg hb] at hn'
        have hn'' : n' = Node.count (buckets.set (IDX_FROM_VALUE value TRIE_MAX_DEPTH)
            (buckets.getD (IDX_FROM_VALUE value TRIE_MAX_DEPTH) 0 + 1)) :=
          (Option.some.inj hn').symm
        subst hn''
        constructor
        · apply NodeWF.count _ _ hpar hp (by simpa using hblen)
          · intro j hj
            by_cases hji : j = IDX_FROM_VALUE value TRIE_MAX_DEPTH
            · subst hji
              rw [getD_set_self' _ _ _ _ (by omega)]
              have := hble _ hj
              omega
            · rw [getD_set_ne' _ _ _ _ _ (Ne.symm hji)]
              exact hble j hj
          · intro j h2 h8
            have hji : j ≠ IDX_FROM_VALUE value TRIE_MAX_DEPTH := by
              rw [hi5]
              omega
            rw [getD_set_ne' _ _ _ _ _ (Ne.symm hji)]
            exact hbhigh j h2 h8
          · intro hp0
            have hvone : value = 1 := by omega
            have hji : (0 : Nat) ≠ IDX_FROM_VALUE value TRIE_MAX_DEPTH := by
              rw [hi5, hvone]
              omega
            rw [getD_set_ne' _ _ _ _ _ (Ne.symm hji)]
            exact hbz hp0
        · intro w hw0 hwp hwW
          rw [hs2] at hwW
          simp only [nodeCount]
          by_cases hwv : w = value
          · subst hwv
            rw [getD_set_self' _ _ _ _ (by omega), if_pos rfl]
          · have hiw : IDX_FROM_VALUE w TRIE_MAX_DEPTH = w % 2 := idx5_eq w
            have hne : IDX_FROM_VALUE w TRIE_MAX_DEPTH ≠
                IDX_FROM_VALUE value TRIE_MAX_DEPTH := by
              rw [hiw, hi5]
              omega
            rw [getD_set_ne' _ _ _ _ _ (Ne.symm hne), if_neg hwv]
            omega
  | travel l0 l1 l2 l3 l4 l5 l6 l7 ih0 ih1 ih2 ih3 ih4 ih5 ih6 ih7 =>
    intro depth p value hwf hv0 hvp hvW
    have hd : depth < 5 := by cases hwf; assumption
    have hal : p % sliceW depth = 0 := by cases hwf; assumption
    have hp : p < 65536 := by cases hwf; assumption
    have hd4 : depth ≤ 4 := by omega
    have hi8 : IDX_FROM_VALUE value depth < 8 := idx_lt8 value depth
    have hchildWF := NodeWF_getLink l0 l1 l2 l3 l4 l5 l6 l7 depth p
      (IDX_FROM_VALUE value depth) hwf hi8
    have hvrange := (idx_eq_iff depth p value (IDX_FROM_VALUE value depth)
      hd4 hal hvp hvW).mp rfl
    have ihAll : ∀ j, j < 8 → ∀ (depth p value : Nat),
        NodeWF (getLink (.travel l0 l1 l2 l3 l4 l5 l6 l7) j) depth p →
        value ≠ 0 → p ≤ value → value < p + sliceW depth →
        (trie_insert_at (getLink (.travel l0 l1 l2 l3 l4 l5 l6 l7) j) depth value = none ↔
          nodeCount (getLink (.travel l0 l1 l2 l3 l4 l5 l6 l7) j) depth value = 65535) ∧
        ∀ n', trie_insert_at (getLink (.travel l0 l1 l2 l3 l4 l5 l6 l7) j) depth value =
            some n' →
          NodeWF n' depth p ∧
          ∀ w, w ≠ 0 → p ≤ w → w < p + sliceW depth →
            nodeCount n' depth w =
              nodeCount (getLink (.travel l0 l1 l2 l3 l4 l5 l6 l7) j) depth w +
                (if w = value then 1 else 0) := by
      intro j hj
      have hc : j = 0 ∨ j = 1 ∨ j = 2 ∨ j = 3 ∨ j = 4 ∨ j = 5 ∨ j = 6 ∨ j = 7 := by
        omega
      rcases hc with h|h|h|h|h|h|h|h <;> subst h <;> simp only [getLink, reduceIte] <;>
        first
        | exact ih0 | exact ih1 | exact ih2 | exact ih3
        | exact ih4 | exact ih5 | exact ih6 | exact ih7
    obtain ⟨hnone_iff, hsome⟩ := ihAll (IDX_FROM_VALUE value depth) hi8 (depth + 1)
      (p + IDX_FROM_VALUE value depth * sliceW (depth + 1)) value hchildWF hv0
      hvrange.1 hvrange.2
    constructor
    · rw [insert_at_travel, Option.map_eq_none', hnone_iff, nodeCount_getLink_idx]
    · intro n' hn'
      rw [insert_at_travel, Option.map_eq_some'] at hn'
      obtain ⟨m, hm, hn''⟩ := hn'
      subst hn''
      obtain ⟨hwfm, hcntm⟩ := hsome m hm
      constructor
      · exact NodeWF_setLink l0 l1 l2 l3 l4 l5 l6 l7 depth p
          (IDX_FROM_VALUE value depth) m hwf hi8 hwfm
      · intro w hw0 hwp hwW
        rw [nodeCount_setLink _ _ _ _ _ _ _ _ _ _ _ _ hi8]
        by_cases hw : IDX_FROM_VALUE w depth = IDX_FROM_VALUE value depth
        · rw [if_pos hw]
          have hwrange := (idx_eq_iff depth p w (IDX_FROM_VALUE value depth)
            hd4 hal hwp hwW).mp hw
          rw [hcntm w hw0 hwrange.1 hwrange.2, nodeCount_getLink_idx, hw]
        · rw [if_neg hw]
          have hne : w ≠ value := by
            intro he
            rw [he] at hw
            exact hw rfl
          simp [hne]

/-! ## Container-level invariant and counting -/

theorem sliceW_zero : sliceW 0 = 65536 := rfl

theorem trie_init_WF : TrieWF trie_init := by
  rw [TrieWF, trie_init]
  show NodeWF (.data empty_data_slots) 0 0
  rw [empty_data_slots_eq]
  apply NodeWF.data
  · omega
  · simp
  · omega
  · simp
  · simp
  · simp

theorem trieCount_init (w : Nat) : trieCount trie_init w = 0 := by
  by_cases h : w = 0
  · simp [trieCount, trie_init, h]
  · simp only [trieCount, trie_init, if_neg h]
    show (empty_data_slots).count w = 0
    rw [List.count_eq_zero_of_not_mem]
    intro hmem
    rw [empty_data_slots] at hmem
    have := List.eq_of_mem_replicate hmem
    exact h this

theorem trie_insert_value_spec (t : Trie) (v : Nat) (hwf : TrieWF t) (hv : v < 65536) :
    (trie_insert_value t v = none ↔ v ≠ 0 ∧ trieCount t v = 65535) ∧
    ∀ t', trie_insert_value t v = some t' →
      TrieWF t' ∧ ∀ w, w < 65536 →
        trieCount t' w = trieCount t w + (if w = v then 1 else 0) := by
  by_cases hz : v = 0
  · subst hz
    constructor
    · simp [trie_insert_value]
    · intro t' ht'
      simp only [trie_insert_value, if_pos rfl] at ht'
      have ht'' : t' = { t with number_of_zeros := t.number_of_zeros + 1 } :=
        (Option.some.inj ht').symm
      subst ht''
      refine ⟨hwf, ?_⟩
      intro w hw
      by_cases hw0 : w = 0
      · simp [trieCount, hw0]
      · simp [trieCount, hw0]
  · obtain ⟨hnone_iff, hsome⟩ := insert_at_spec t.base_node 0 0 v hwf hz (by omega)
      (by rw [sliceW_zero]; omega)
    constructor
    · rw [trie_insert_value, if_neg hz, Option.map_eq_none', hnone_iff]
      rw [trieCount, if_neg hz]
      tauto
    · intro t' ht'
      rw [trie_insert_value, if_neg hz, Option.map_eq_some'] at ht'
      obtain ⟨m, hm, ht''⟩ := ht'
      subst ht''
      obtain ⟨hwfm, hcntm⟩ := hsome m hm
      refine ⟨hwfm, ?_⟩
      intro w hw
      by_cases hw0 : w = 0
      · subst hw0
        simp only [trieCount, if_pos rfl]
        rw [if_neg (Ne.symm hz)]
        simp
      · simp only [trieCount, if_neg hw0]
        exact hcntm w hw0 (by omega) (by rw [sliceW_zero]; omega)

theorem trie_insert_list_spec (vals : List Nat) : ∀ t : Trie, TrieWF t →
    (∀ v ∈ vals, v < 65536) →
    ∀ t', trie_insert_list t vals = some t' → TrieWF t' ∧
      ∀ w, w < 65536 → trieCount t' w = trieCount t w + vals.count w := by
  induction vals with
  | nil =>
    intro t hwf _ t' ht'
    have : t' = t := (Option.some.inj ht').symm
    subst this
    refine ⟨hwf, ?_⟩
    intro w _
    simp
  | cons v vs ih =>
    intro t hwf hval t' ht'
    rw [trie_insert_list] at ht'
    cases hstep : trie_insert_value t v with
    | none =>
      rw [hstep] at ht'
      cases ht'
    | some t1 =>
      rw [hstep] at ht'
      obtain ⟨hwf1, hcnt1⟩ := (trie_insert_value_spec t v hwf
        (hval v (by simp))).2 t1 hstep
      obtain ⟨hwf', hcnt'⟩ := ih t1 hwf1 (fun x hx => hval x (by simp [hx])) t' ht'
      refine ⟨hwf', ?_⟩
      intro w hw
      rw [hcnt' w hw, hcnt1 w hw, List.count_cons]
      by_cases h : w = v
      · simp [h]
        omega
      · simp [h, Ne.symm h]

/-- Every state reached by inserting a sequence of u16 values into a fresh
container is well-formed and stores exactly the multiset of that sequence. -/
theorem reachable_spec (vals : List Nat) (t : Trie)
    (hval : ∀ v ∈ vals, v < 65536)
    (h : trie_insert_list trie_init vals = some t) :
    TrieWF t ∧ ∀ w, w < 65536 → trieCount t w = vals.count w := by
  obtain ⟨hwf, hcnt⟩ := trie_insert_list_spec vals trie_init trie_init_WF hval t h
  refine ⟨hwf, ?_⟩
  intro w hw
  rw [hcnt w hw, trieCount_init]
  omega

/-! ## Specification of the in-order enumeration -/

theorem print_data_fromAsc (asc : List Nat) (hnz : ∀ x ∈ asc, x ≠ 0)
    (hlen : asc.length ≤ 32) :
    trie__print_data_node (fromAsc asc) = asc := by
  rw [trie__print_data_node, fromAsc, List.reverse_append, List.reverse_reverse,
    List.reverse_replicate]
  rw [List.takeWhile_append_of_pos (by intro a ha; simpa using hnz a ha)]
  rcases Nat.eq_zero_or_pos (32 - asc.length) with h | h
  · simp [h]
  · have : 32 - asc.length = (32 - asc.length - 1) + 1 := by omega
    rw [this, List.replicate_succ, List.takeWhile_cons]
    simp

theorem sorted_replicate (n x : Nat) : (List.replicate n x).Sorted (· ≤ ·) := by
  rw [List.Sorted]
  rw [List.pairwise_replicate]
  simp

theorem flat_segments_spec (S : Nat → List Nat) (p W : Nat) :
    ∀ n, (∀ c, c < n → (S c).Sorted (· ≤ ·) ∧
        ∀ x ∈ S c, p + c * W ≤ x ∧ x < p + c * W + W) →
      ((List.range n).flatMap S).Sorted (· ≤ ·) ∧
      (∀ x ∈ (List.range n).flatMap S, p ≤ x ∧ x < p + n * W) ∧
      (∀ w c, c < n → p + c * W ≤ w → w < p + c * W + W →
        ((List.range n).flatMap S).count w = (S c).count w) := by
  intro n
  induction n with
  | zero =>
    intro _
    refine ⟨by simp [List.Sorted], by simp, by omega⟩
  | succ n ih =>
    intro h
    obtain ⟨ihs, ihm, ihc⟩ := ih (fun c hc => h c (by omega))
    obtain ⟨hsn, hmn⟩ := h n (by omega)
    have hflat : (List.range (n + 1)).flatMap S = (List.range n).flatMap S ++ S n := by
      rw [List.range_succ, List.flatMap_append]
      simp
    refine ⟨?_, ?_, ?_⟩
    · rw [hflat, List.Sorted, List.pairwise_append]
      refine ⟨ihs, hsn, ?_⟩
      intro x hx y hy
      have hxb := (ihm x hx).2
      have hyb := (hmn y hy).1
      calc x ≤ p + n * W := by omega
        _ ≤ y := hyb
    · intro x hx
      rw [hflat, List.mem_append] at hx
      rcases hx with hx | hx
      · have := ihm x hx
        have hnW : n * W ≤ (n + 1) * W := Nat.mul_le_mul_right _ (by omega)
        exact ⟨this.1, by omega⟩
      · have := hmn x hx
        have hcW : n * W + W = (n + 1) * W := by ring
        exact ⟨by omega, by omega⟩
    · intro w c hc hw1 hw2
      rw [hflat, List.count_append]
      by_cases hcn : c = n
      · subst hcn
        have hz : ((List.range c).flatMap S).count w = 0 := by
          rw [List.count_eq_zero_of_not_mem]
          intro hmem
          have := (ihm w hmem).2
          omega
        omega
      · have hc' : c < n := by omega
        have hz : (S n).count w = 0 := by
          rw [List.count_eq_zero_of_not_mem]
          intro hmem
          have h1 := (hmn w hmem).1
          have hle : c * W + W ≤ n * W := by
            have : c + 1 ≤ n := by omega
            calc c * W + W = (c + 1) * W := by ring
              _ ≤ n * W := Nat.mul_le_mul_right _ this
          omega
        rw [hz, ihc w c hc' hw1 hw2]
        omega

theorem print_travel_flat (l0 l1 l2 l3 l4 l5 l6 l7 : Node) (p depth : Nat)
    (hd : depth ≤ 4) :
    trie__print_subtrie (.travel l0 l1 l2 l3 l4 l5 l6 l7) p depth =
      (List.range 8).flatMap (fun c =>
        trie__print_subtrie (getLink (.travel l0 l1 l2 l3 l4 l5 l6 l7) c)
          (p + c * sliceW (depth + 1)) (depth + 1)) := by
  have h8 : List.range 8 = [0, 1, 2, 3, 4, 5, 6, 7] := rfl
  interval_cases depth <;>
    simp only [trie__print_subtrie, getLink, h8, List.flatMap_cons, List.flatMap_nil,
      MASK_N_BITS, sliceW, reduceIte, Nat.shiftRight_eq_div_pow] <;>
    norm_num [List.append_assoc]

theorem print_spec (n : Node) : ∀ depth p, NodeWF n depth p →
    (trie__print_subtrie n p depth).Sorted (· ≤ ·) ∧
    (∀ x ∈ trie__print_subtrie n p depth, 0 < x ∧ p ≤ x ∧ x < p + sliceW depth) ∧
    (∀ w, w ≠ 0 → p ≤ w → w < p + sliceW depth →
      (trie__print_subtrie n p depth).count w = nodeCount n depth w) := by
  induction n with
  | data slots =>
    intro depth p hwf
    obtain ⟨asc, rfl, h5, hal, hp, hlen, hsort, hmem⟩ := NodeWF_data_inv _ _ _ hwf
    have hnz : ∀ x ∈ asc, x ≠ 0 := fun x hx => (hmem x hx).1
    have hpr : trie__print_subtrie (.data (fromAsc asc)) p depth = asc := by
      show trie__print_data_node (fromAsc asc) = asc
      exact print_data_fromAsc asc hnz (by omega)
    rw [hpr]
    refine ⟨hsort, ?_, ?_⟩
    · intro x hx
      obtain ⟨h0, h1, h2⟩ := hmem x hx
      exact ⟨by omega, h1, h2⟩
    · intro w hw0 _ _
      show asc.count w = (fromAsc asc).count w
      rw [fromAsc_count asc w hw0 (by omega)]
  | count buckets =>
    intro depth p hwf
    obtain ⟨h5, hpar, hp, hblen, hble, hbhigh, hbz⟩ := NodeWF_count_inv _ _ _ hwf
    subst h5
    have hs2 : sliceW 5 = 2 := rfl
    have hb0 : IDX_FROM_VALUE p TRIE_MAX_DEPTH = 0 := by
      have h : IDX_FROM_VALUE p TRIE_MAX_DEPTH = p % 2 := idx5_eq p
      omega
    have hb1 : IDX_FROM_VALUE (p + 1) TRIE_MAX_DEPTH = 1 := by
      have h : IDX_FROM_VALUE (p + 1) TRIE_MAX_DEPTH = (p + 1) % 2 := idx5_eq (p + 1)
      omega
    have hpr : trie__print_subtrie (.count buckets) p 5 =
        List.replicate (buckets.getD 0 0) p ++
          List.replicate (buckets.getD 1 0) (p + 1) := by
      show trie__print_count_node buckets p ++ trie__print_count_node buckets (p + 1) = _
      rw [trie__print_count_node, trie__print_count_node, hb0, hb1]
    rw [hpr]
    refine ⟨?_, ?_, ?_⟩
    · rw [List.Sorted, List.pairwise_append]
      refine ⟨sorted_replicate _ _, sorted_replicate _ _, ?_⟩
      intro x hx y hy
      rw [List.eq_of_mem_replicate hx, List.eq_of_mem_replicate hy]
      omega
    · intro x hx
      rw [List.mem_append] at hx
      rcases hx with hx | hx
      · have hxp := List.eq_of_mem_replicate hx
        rw [hxp]
        refine ⟨?_, le_refl _, by omega⟩
        by_contra hx0
        have hp0 : p = 0 := by omega
        exact (List.mem_replicate.mp hx).1 (hbz hp0)
      · have hxp := List.eq_of_mem_replicate hx
        rw [hxp]
        exact ⟨by omega, by omega, by omega⟩
    · intro w hw0 hwp hwW
      rw [hs2] at hwW
      rw [List.count_append, List.count_replicate, List.count_replicate]
      show _ = buckets.getD (IDX_FROM_VALUE w TRIE_MAX_DEPTH) 0
      have hiw : IDX_FROM_VALUE w TRIE_MAX_DEPTH = w % 2 := idx5_eq w
      by_cases hw : w = p
      · subst hw
        have hi0 : IDX_FROM_VALUE w TRIE_MAX_DEPTH = 0 := by omega
        rw [hi0]
        have c1 : (w == w) = true := by simp
        have c2 : ((w + 1) == w) = false := by simp
        rw [c1, c2]
        simp
      · have hw1 : w = p + 1 := by omega
        subst hw1
        have hi1 : IDX_FROM_VALUE (p + 1) TRIE_MAX_DEPTH = 1 := hb1
        rw [hi1]
        have c1 : (p == p + 1) = false := by simp
        have c2 : ((p + 1) == p + 1) = true := by simp
        rw [c1, c2]
        simp
  | travel l0 l1 l2 l3 l4 l5 l6 l7 ih0 ih1 ih2 ih3 ih4 ih5 ih6 ih7 =>
    intro depth p hwf
    have hd : depth < 5 := by cases hwf; assumption
    have hal : p % sliceW depth = 0 := by cases hwf; assumption
    have hp : p < 65536 := by cases hwf; assumption
    have hd4 : depth ≤ 4 := by omega
    have hsucc : sliceW depth = 8 * sliceW (depth + 1) := sliceW_succ depth hd4
    have ihAll : ∀ j, j < 8 → ∀ depth p,
        NodeWF (getLink (.travel l0 l1 l2 l3 l4 l5 l6 l7) j) depth p →
        (trie__print_subtrie (getLink (.travel l0 l1 l2 l3 l4 l5 l6 l7) j) p
          depth).Sorted (· ≤ ·) ∧
        (∀ x ∈ trie__print_subtrie (getLink (.travel l0 l1 l2 l3 l4 l5 l6 l7) j) p depth,
          0 < x ∧ p ≤ x ∧ x < p + sliceW depth) ∧
        (∀ w, w ≠ 0 → p ≤ w → w < p + sliceW depth →
          (trie__print_subtrie (getLink (.travel l0 l1 l2 l3 l4 l5 l6 l7) j) p
            depth).count w =
            nodeCount (getLink (.travel l0 l1 l2 l3 l4 l5 l6 l7) j) depth w) := by
      intro j hj
      have hc : j = 0 ∨ j = 1 ∨ j = 2 ∨ j = 3 ∨ j = 4 ∨ j = 5 ∨ j = 6 ∨ j = 7 := by
        omega
      rcases hc with h|h|h|h|h|h|h|h <;> subst h <;> simp only [getLink, reduceIte] <;>
        first
        | exact ih0 | exact ih1 | exact ih2 | exact ih3
        | exact ih4 | exact ih5 | exact ih6 | exact ih7
    have hseg : ∀ c, c < 8 →
        (trie__print_subtrie (getLink (.travel l0 l1 l2 l3 l4 l5 l6 l7) c)
          (p + c * sliceW (depth + 1)) (depth + 1)).Sorted (· ≤ ·) ∧
        ∀ x ∈ trie__print_subtrie (getLink (.travel l0 l1 l2 l3 l4 l5 l6 l7) c)
            (p + c * sliceW (depth + 1)) (depth + 1),
          p + c * sliceW (depth + 1) ≤ x ∧
            x < p + c * sliceW (depth + 1) + sliceW (depth + 1) := by
      intro c hc
      obtain ⟨hs, hm, _⟩ := ihAll c hc (depth + 1) (p + c * sliceW (depth + 1))
        (NodeWF_getLink l0 l1 l2 l3 l4 l5 l6 l7 depth p c hwf hc)
      exact ⟨hs, fun x hx => ⟨(hm x hx).2.1, (hm x hx).2.2⟩⟩
    obtain ⟨hfs, hfm, hfc⟩ := flat_segments_spec
      (fun c => trie__print_subtrie (getLink (.travel l0 l1 l2 l3 l4 l5 l6 l7) c)
        (p + c * sliceW (depth + 1)) (depth + 1))
      p (sliceW (depth + 1)) 8 hseg
    rw [print_travel_flat l0 l1 l2 l3 l4 l5 l6 l7 p depth hd4]
    refine ⟨hfs, ?_, ?_⟩
    · intro x hx
      have hb := hfm x hx
      have hpos : 0 < x := by
        rw [List.mem_flatMap] at hx
        obtain ⟨c, hc, hxc⟩ := hx
        have hc8 : c < 8 := by
          have := List.mem_range.mp hc
          omega
        obtain ⟨_, hm, _⟩ := ihAll c hc8 (depth + 1) (p + c * sliceW (depth + 1))
          (NodeWF_getLink l0 l1 l2 l3 l4 l5 l6 l7 depth p c hwf hc8)
        exact (hm x hxc).1
      rw [hsucc]
      exact ⟨hpos, hb.1, hb.2⟩
    · intro w hw0 hwp hwW
      have hi8 : IDX_FROM_VALUE w depth < 8 := idx_lt8 w depth
      have hwrange := (idx_eq_iff depth p w (IDX_FROM_VALUE w depth) hd4 hal hwp
        hwW).mp rfl
      rw [hfc w (IDX_FROM_VALUE w depth) hi8 hwrange.1 hwrange.2]
      obtain ⟨_, _, hcnt⟩ := ihAll (IDX_FROM_VALUE w depth) hi8 (depth + 1)
        (p + IDX_FROM_VALUE w depth * sliceW (depth + 1))
        (NodeWF_getLink l0 l1 l2 l3 l4 l5 l6 l7 depth p (IDX_FROM_VALUE w depth)
          hwf hi8)
      rw [hcnt w hw0 hwrange.1 hwrange.2, nodeCount_getLink_idx]

/-! ## The reference oracle -/

theorem oracle_fold_count (vals : List Nat) : ∀ (arr : List Nat), arr.length = 65536 →
    (∀ v ∈ vals, v < 65536) →
    ((vals.foldl oracle_insert arr).length = 65536 ∧
      ∀ w, w < 65536 →
        (vals.foldl oracle_insert arr).getD w 0 = arr.getD w 0 + vals.count w) := by
  induction vals with
  | nil =>
    intro arr hlen _
    refine ⟨hlen, ?_⟩
    intro w _
    simp
  | cons v vs ih =>
    intro arr hlen hval
    have hv : v < 65536 := hval v (by simp)
    have hlen' : (oracle_insert arr v).length = 65536 := by
      rw [oracle_insert]
      simpa using hlen
    obtain ⟨hl, hc⟩ := ih (oracle_insert arr v) hlen'
      (fun x hx => hval x (by simp [hx]))
    refine ⟨by simpa using hl, ?_⟩
    intro w hw
    rw [List.foldl_cons, hc w hw, List.count_cons]
    by_cases hwv : w = v
    · subst hwv
      rw [oracle_insert, getD_set_self' _ _ _ _ (by omega)]
      simp
      omega
    · rw [oracle_insert, getD_set_ne' _ _ _ _ _ (Ne.symm hwv)]
      simp [hwv, Ne.symm hwv]

theorem oracle_build_spec (vals : List Nat) (hval : ∀ v ∈ vals, v < 65536) :
    ∀ w, w < 65536 → (oracle_build vals).getD w 0 = vals.count w := by
  intro w hw
  obtain ⟨_, hc⟩ := oracle_fold_count vals oracle_init
    (by rw [oracle_init, List.length_replicate]) hval
  rw [oracle_build, hc w hw, oracle_init, getD_replicate_zero]
  omega

theorem oracle_print_spec (arr : List Nat) :
    (oracle_print arr).Sorted (· ≤ ·) ∧
    ∀ w, (oracle_print arr).count w = if w < 65536 then arr.getD w 0 else 0 := by
  obtain ⟨hs, hm, hc⟩ := flat_segments_spec
    (fun i => List.replicate (arr.getD i 0) i) 0 1 65536
    (by
      intro c _
      refine ⟨sorted_replicate _ _, ?_⟩
      intro x hx
      rw [List.eq_of_mem_replicate hx]
      omega)
  refine ⟨hs, ?_⟩
  intro w
  by_cases hw : w < 65536
  · rw [if_pos hw]
    have := hc w w hw (by omega) (by omega)
    rw [oracle_print, this, List.count_replicate_self]
  · rw [if_neg hw, oracle_print, List.count_eq_zero_of_not_mem]
    intro hmem
    have := hm w hmem
    omega

/-! ## The full printed sequence -/

theorem trie_print_values_spec (t : Trie) (hwf : TrieWF t) :
    (trie_print_values t).Sorted (· ≤ ·) ∧
    ∀ w, (trie_print_values t).count w = if w < 65536 then trieCount t w else 0 := by
  obtain ⟨hs, hm, hc⟩ := print_spec t.base_node 0 0 hwf
  rw [sliceW_zero] at hm hc
  constructor
  · rw [trie_print_values, List.Sorted, List.pairwise_append]
    refine ⟨sorted_replicate _ _, hs, ?_⟩
    intro x hx y _
    rw [List.eq_of_mem_replicate hx]
    omega
  · intro w
    rw [trie_print_values, List.count_append, List.count_replicate]
    by_cases hw0 : w = 0
    · subst hw0
      have hz : (trie__print_subtrie t.base_node 0 0).count 0 = 0 := by
        rw [List.count_eq_zero_of_not_mem]
        intro hmem
        have := (hm 0 hmem).1
        omega
      rw [hz]
      simp [trieCount]
    · have hc1 : ((0 : Nat) == w) = false := by
        simp [Ne.symm hw0]
      rw [hc1]
      by_cases hw : w < 65536
      · rw [if_pos hw, hc w hw0 (by omega) (by omega)]
        simp [trieCount, hw0]
      · rw [if_neg hw, List.count_eq_zero_of_not_mem]
        · simp
        · intro hmem
          have := (hm w hmem).2.2
          omega

/-! ## Structural predicates derived from the invariant -/

theorem sorted_getD_le (asc : List Nat) (hsort : asc.Sorted (· ≤ ·)) (a b : Nat)
    (hab : a ≤ b) (hb : b < asc.length) : asc.getD a 0 ≤ asc.getD b 0 := by
  rw [List.getD_eq_getElem _ _ (by omega), List.getD_eq_getElem _ _ hb]
  have h := hsort.rel_get_of_le (a := ⟨a, by omega⟩) (b := ⟨b, hb⟩)
    (by simpa using hab)
  simpa using h

theorem slots_shaped_fromAsc (asc : List Nat) (hsort : asc.Sorted (· ≤ ·))
    (hnz : ∀ x ∈ asc, x ≠ 0) (hlen : asc.length ≤ 32) :
    slots_shaped (fromAsc asc) := by
  refine ⟨fromAsc_length asc hlen, ?_, ?_⟩
  · intro i j hij hj hi0
    have hilow : ¬ i < 32 - asc.length := fun hc => hi0 (fromAsc_getD_low asc i hc)
    have hjdec : j = (32 - asc.length) + (j - (32 - asc.length)) := by omega
    rw [hjdec, fromAsc_getD_high asc _ (by omega)]
    exact hnz _ (getD_mem_of_lt _ _ (by omega))
  · intro i j hij hj hi0 hj0
    have hilow : ¬ i < 32 - asc.length := fun hc => hi0 (fromAsc_getD_low asc i hc)
    have hidec : i = (32 - asc.length) + (i - (32 - asc.length)) := by omega
    have hjdec : j = (32 - asc.length) + (j - (32 - asc.length)) := by omega
    rw [hidec, hjdec, fromAsc_getD_high asc _ (by omega),
      fromAsc_getD_high asc _ (by omega)]
    exact sorted_getD_le asc hsort _ _ (by omega) (by omega)

theorem data_nodes_shaped_of_WF (n : Node) : ∀ depth p, NodeWF n depth p →
    data_nodes_shaped n := by
  induction n with
  | data slots =>
    intro depth p hwf
    obtain ⟨asc, rfl, _, _, _, hlen, hsort, hmem⟩ := NodeWF_data_inv _ _ _ hwf
    exact slots_shaped_fromAsc asc hsort (fun x hx => (hmem x hx).1) (by omega)
  | count buckets =>
    intro _ _ _
    trivial
  | travel l0 l1 l2 l3 l4 l5 l6 l7 ih0 ih1 ih2 ih3 ih4 ih5 ih6 ih7 =>
    intro depth p hwf
    cases hwf with
    | travel _ _ _ _ _ _ _ _ _ _ hd hal hp h0 h1 h2 h3 h4 h5 h6 h7 =>
      exact ⟨ih0 _ _ h0, ih1 _ _ h1, ih2 _ _ h2, ih3 _ _ h3, ih4 _ _ h4,
        ih5 _ _ h5, ih6 _ _ h6, ih7 _ _ h7⟩

theorem buckets_le_of_WF (n : Node) : ∀ depth p, NodeWF n depth p → buckets_le n := by
  induction n with
  | data slots =>
    intro _ _ _
    trivial
  | count buckets =>
    intro depth p hwf
    obtain ⟨_, _, _, _, hble, _, _⟩ := NodeWF_count_inv _ _ _ hwf
    exact hble
  | travel l0 l1 l2 l3 l4 l5 l6 l7 ih0 ih1 ih2 ih3 ih4 ih5 ih6 ih7 =>
    intro depth p hwf
    cases hwf with
    | travel _ _ _ _ _ _ _ _ _ _ hd hal hp h0 h1 h2 h3 h4 h5 h6 h7 =>
      exact ⟨ih0 _ _ h0, ih1 _ _ h1, ih2 _ _ h2, ih3 _ _ h3, ih4 _ _ h4,
        ih5 _ _ h5, ih6 _ _ h6, ih7 _ _ h7⟩

theorem high_buckets_zero_of_WF (n : Node) : ∀ depth p, NodeWF n depth p →
    high_buckets_zero n := by
  induction n with
  | data slots =>
    intro _ _ _
    trivial
  | count buckets =>
    intro depth p hwf
    obtain ⟨_, _, _, _, _, hbhigh, _⟩ := NodeWF_count_inv _ _ _ hwf
    exact hbhigh
  | travel l0 l1 l2 l3 l4 l5 l6 l7 ih0 ih1 ih2 ih3 ih4 ih5 ih6 ih7 =>
    intro depth p hwf
    cases hwf with
    | travel _ _ _ _ _ _ _ _ _ _ hd hal hp h0 h1 h2 h3 h4 h5 h6 h7 =>
      exact ⟨ih0 _ _ h0, ih1 _ _ h1, ih2 _ _ h2, ih3 _ _ h3, ih4 _ _ h4,
        ih5 _ _ h5, ih6 _ _ h6, ih7 _ _ h7⟩

theorem classify_ok_of_WF (n : Node) : ∀ depth p, NodeWF n depth p →
    classify_ok n depth := by
  induction n with
  | data slots =>
    intro depth p hwf
    obtain ⟨asc, rfl, hd, _, _, hlen, _, _⟩ := NodeWF_data_inv _ _ _ hwf
    show trie__determine_node_type (.data (fromAsc asc)) depth = .DATA
    rw [trie__determine_node_type,
      if_neg (by show ¬ depth = TRIE_MAX_DEPTH; rw [TRIE_MAX_DEPTH]; omega)]
    rw [if_pos]
    show (fromAsc asc).getD 0 0 = 0
    exact fromAsc_getD_low asc 0 (by omega)
  | count buckets =>
    intro depth p hwf
    obtain ⟨h5, _, _, _, _, _, _⟩ := NodeWF_count_inv _ _ _ hwf
    subst h5
    show trie__determine_node_type (.count buckets) 5 = .COUNT
    rw [trie__determine_node_type, if_pos (show (5 : Nat) = TRIE_MAX_DEPTH from rfl)]
  | travel l0 l1 l2 l3 l4 l5 l6 l7 ih0 ih1 ih2 ih3 ih4 ih5 ih6 ih7 =>
    intro depth p hwf
    have hd : depth < 5 := by cases hwf; assumption
    cases hwf with
    | travel _ _ _ _ _ _ _ _ _ _ hd' hal hp h0 h1 h2 h3 h4 h5 h6 h7 =>
      refine ⟨?_, ih0 _ _ h0, ih1 _ _ h1, ih2 _ _ h2, ih3 _ _ h3, ih4 _ _ h4,
        ih5 _ _ h5, ih6 _ _ h6, ih7 _ _ h7⟩
      rw [trie__determine_node_type,
        if_neg (by show ¬ depth = TRIE_MAX_DEPTH; rw [TRIE_MAX_DEPTH]; omega)]
      rw [if_neg]
      show ¬ node_slot0 (.travel l0 l1 l2 l3 l4 l5 l6 l7) = 0
      rw [node_slot0]
      omega

/-! ## Claim theorems -/

/-- C1: for every finite sequence of u16 values inserted one at a time into a
freshly created container (in any order — `vals'` is an arbitrary permutation
of `vals`), the enumeration `trie_print_values` emits exactly the multiset of
inserted values in ascending numeric order, each value once per insertion:
it equals the output of the 65536-slot occurrence-count oracle built from the
sequence. -/
theorem C1_oracle_equivalence (vals vals' : List Nat) (t' : Trie)
    (hperm : vals.Perm vals') (hval : ∀ v ∈ vals, v < 65536)
    (h : trie_insert_list trie_init vals' = some t') :
    trie_print_values t' = oracle_print (oracle_build vals) := by
  have hval' : ∀ v ∈ vals', v < 65536 := fun v hv => hval v (hperm.mem_iff.mpr hv)
  obtain ⟨hwf, hcnt⟩ := reachable_spec vals' t' hval' h
  obtain ⟨hps, hpc⟩ := trie_print_values_spec t' hwf
  obtain ⟨hos, hoc⟩ := oracle_print_spec (oracle_build vals)
  refine List.eq_of_perm_of_sorted (List.perm_iff_count.mpr ?_) hps hos
  intro w
  rw [hpc w, hoc w]
  by_cases hw : w < 65536
  · rw [if_pos hw, if_pos hw, hcnt w hw, oracle_build_spec vals hval w hw,
      hperm.count_eq]
  · rw [if_neg hw, if_neg hw]

theorem C1_oracle_equivalence_witness :
    trie_print_values ((trie_insert_list trie_init [1, 2, 1]).getD trie_init) =
      oracle_print (oracle_build [2, 1, 1]) :=
  C1_oracle_equivalence [2, 1, 1] [1, 2, 1] _ (by decide) (by decide) (by rfl)

/-- C3 counterexample: after inserting 3 then 5 into a fresh container the
root data node holds 5 at slot 30 and 3 at slot 31 — the occupied suffix is
NOT sorted ascending with increasing slot index (it is descending). -/
theorem C3_counterexample :
    (trie_insert_list trie_init [3, 5]).map Trie.base_node =
      some (.data (List.replicate 30 0 ++ [5, 3])) ∧
    (List.replicate 30 0 ++ [5, 3]).getD 30 0 = 5 ∧
    (List.replicate 30 0 ++ [5, 3]).getD 31 0 = 3 ∧
    ¬ (List.replicate 30 0 ++ [5, 3]).getD 30 0 ≤
        (List.replicate 30 0 ++ [5, 3]).getD 31 0 := by
  refine ⟨by rfl, by rfl, by rfl, by decide⟩

/-- C3 (amended): in every reachable data node the empty slots (holding 0)
form a contiguous prefix, the occupied slots a contiguous suffix, and the
occupied values are sorted DESCENDING with increasing slot index (i.e.
ascending when the node is read from slot 31 downward, which is the order the
enumeration reads them); this holds after every insert (bursts happen inside
insert, so every post-burst state is covered). -/
theorem C3_slot_shape (vals : List Nat) (t : Trie)
    (hval : ∀ v ∈ vals, v < 65536)
    (h : trie_insert_list trie_init vals = some t) :
    data_nodes_shaped t.base_node := by
  obtain ⟨hwf, _⟩ := reachable_spec vals t hval h
  exact data_nodes_shaped_of_WF t.base_node 0 0 hwf

theorem C3_slot_shape_witness :
    data_nodes_shaped ((trie_insert_list trie_init [3, 5]).getD trie_init).base_node :=
  C3_slot_shape [3, 5] _ (by decide) (by rfl)

/-- C4: the addressing function is pure and total over all 16-bit values;
depths 0–4 each extract a disjoint contiguous 3-bit slice (the value's bits
at falling offsets 13, 10, 7, 4, 1 — most-significant first), depth 5
extracts the single remaining least-significant bit, and recombining every
depth's slice shifted back to its position reconstructs the value exactly. -/
theorem C4_addressing (v : Nat) (hv : v < 65536) :
    (IDX_FROM_VALUE v 0 * 8192 + IDX_FROM_VALUE v 1 * 1024 + IDX_FROM_VALUE v 2 * 128 +
      IDX_FROM_VALUE v 3 * 16 + IDX_FROM_VALUE v 4 * 2 + IDX_FROM_VALUE v 5 = v) ∧
    (∀ d, d ≤ 4 → IDX_FROM_VALUE v d = v / 2 ^ (13 - 3 * d) % 8 ∧ IDX_FROM_VALUE v d < 8) ∧
    IDX_FROM_VALUE v 5 = v % 2 ∧
    (∀ j, j ≤ 5 → ∀ i, i < j → mask_array.getD i 0 &&& mask_array.getD j 0 = 0) ∧
    (∀ j, j ≤ 5 → ∀ i, i < j → shift_amount.getD j 0 < shift_amount.getD i 0) := by
  refine ⟨?_, ?_, idx5_eq v, by decide, by decide⟩
  · have h0 := idx0_eq v
    have h1 := idx1_eq v
    have h2 := idx2_eq v
    have h3 := idx3_eq v
    have h4 := idx4_eq v
    have h5 := idx5_eq v
    omega
  · intro d hd
    interval_cases d <;>
      simp only [idx0_eq, idx1_eq, idx2_eq, idx3_eq, idx4_eq] <;> norm_num <;> omega

theorem C4_addressing_witness :
    IDX_FROM_VALUE 54321 0 * 8192 + IDX_FROM_VALUE 54321 1 * 1024 +
      IDX_FROM_VALUE 54321 2 * 128 + IDX_FROM_VALUE 54321 3 * 16 +
      IDX_FROM_VALUE 54321 4 * 2 + IDX_FROM_VALUE 54321 5 = 54321 :=
  (C4_addressing 54321 (by decide)).1

/-- C5: on a terminal count node the insertion increments the bucket selected
by `IDX_FROM_VALUE value TRIE_MAX_DEPTH`, aborting (`none`, the
`assert(*bucket != USHRT_MAX)`) exactly when the bucket already holds 65535;
an insertion into a reachable container fails in no other way (`none` iff the
value's stored multiplicity is already 65535, which can only happen at a
count node), and consequently no bucket in a reachable container exceeds
65535. -/
theorem C5_counter_ceiling (vals : List Nat) (t : Trie) (v : Nat)
    (hval : ∀ x ∈ vals, x < 65536)
    (h : trie_insert_list trie_init vals = some t) (hv : v < 65536) :
    (∀ buckets value, trie_insert_at (.count buckets) TRIE_MAX_DEPTH value =
      if buckets.getD (IDX_FROM_VALUE value TRIE_MAX_DEPTH) 0 = 65535 then none
      else some (.count (buckets.set (IDX_FROM_VALUE value TRIE_MAX_DEPTH)
        (buckets.getD (IDX_FROM_VALUE value TRIE_MAX_DEPTH) 0 + 1)))) ∧
    (trie_insert_value t v = none ↔ v ≠ 0 ∧ trieCount t v = 65535) ∧
    buckets_le t.base_node := by
  obtain ⟨hwf, _⟩ := reachable_spec vals t hval h
  refine ⟨fun buckets value => rfl, ?_, buckets_le_of_WF t.base_node 0 0 hwf⟩
  exact (trie_insert_value_spec t v hwf hv).1

theorem C5_counter_ceiling_witness :
    buckets_le ((trie_insert_list trie_init [7]).getD trie_init).base_node :=
  (C5_counter_ceiling [7] _ 7 (by decide) (by rfl) (by decide)).2.2

/-- C7: inserting the sequence [0,1,2,3,5,1,8,0,8,13,65535,90] into a fresh
container and enumerating produces exactly the text
"0 0 1 1 2 3 5 8 8 13 90 65535 " — ascending order with multiplicities,
zeros first, each value followed by one trailing space and nothing else. -/
theorem C7_example_output :
    (trie_insert_list trie_init [0, 1, 2, 3, 5, 1, 8, 0, 8, 13, 65535, 90]).map
      (fun t => render (trie_print_values t)) =
      some "0 0 1 1 2 3 5 8 8 13 90 65535 " := by
  rfl

/-- C8: the terminal bucket index `IDX_FROM_VALUE v TRIE_MAX_DEPTH` is 0 or 1
for every value, and in every reachable container the counters at indices
2–7 of every count node are zero (they are never addressed by insertion or
enumeration). -/
theorem C8_terminal_indices :
    (∀ v : Nat, IDX_FROM_VALUE v TRIE_MAX_DEPTH = 0 ∨
      IDX_FROM_VALUE v TRIE_MAX_DEPTH = 1) ∧
    ∀ vals t, (∀ x ∈ vals, x < 65536) → trie_insert_list trie_init vals = some t →
      high_buckets_zero t.base_node := by
  constructor
  · intro v
    have h : IDX_FROM_VALUE v TRIE_MAX_DEPTH = v % 2 := idx5_eq v
    omega
  · intro vals t hval h
    obtain ⟨hwf, _⟩ := reachable_spec vals t hval h
    exact high_buckets_zero_of_WF t.base_node 0 0 hwf

theorem C8_terminal_indices_witness :
    (IDX_FROM_VALUE 7 TRIE_MAX_DEPTH = 0 ∨ IDX_FROM_VALUE 7 TRIE_MAX_DEPTH = 1) ∧
    high_buckets_zero ((trie_insert_list trie_init [1, 1]).getD trie_init).base_node :=
  ⟨C8_terminal_indices.1 7, C8_terminal_indices.2 [1, 1] _ (by decide) (by rfl)⟩

/-- C9: on every reachable state the tagless classification is sound:
`trie__determine_node_type` recovers every node's actual shape from
`(depth, content)` alone — depth = TRIE_MAX_DEPTH gives COUNT, otherwise a
zero slot 0 gives DATA and a non-zero slot 0 gives TRAVEL (the tag bit makes
a travel node's slot 0 odd).  In particular no data node is ever left full
between operations. -/
theorem C9_classification (vals : List Nat) (t : Trie)
    (hval : ∀ x ∈ vals, x < 65536)
    (h : trie_insert_list trie_init vals = some t) :
    classify_ok t.base_node 0 := by
  obtain ⟨hwf, _⟩ := reachable_spec vals t hval h
  exact classify_ok_of_WF t.base_node 0 0 hwf

theorem C9_classification_witness :
    classify_ok ((trie_insert_list trie_init [2, 4, 6]).getD trie_init).base_node 0 :=
  C9_classification [2, 4, 6] _ (by decide) (by rfl)

theorem fromAsc_full (asc : List Nat) (h : asc.length = 32) :
    fromAsc asc = asc.reverse := by
  rw [fromAsc, h]
  simp

theorem burst_is_travel (slots : List Nat) (depth : Nat) (hd : depth < 5) :
    ∃ c0 c1 c2 c3 c4 c5 c6 c7, trie__burst_data_node slots depth =
      .travel c0 c1 c2 c3 c4 c5 c6 c7 := by
  by_cases h4 : depth = TRIE_MAX_DEPTH - 1
  · rw [trie__burst_data_node, burst_rec, if_pos h4]
    exact ⟨_, _, _, _, _, _, _, _, rfl⟩
  · have h4n : depth ≠ 4 := fun hh => h4 (hh.trans rfl)
    have hf : TRIE_MAX_DEPTH - 1 - depth = (TRIE_MAX_DEPTH - 1 - (depth + 1)) + 1 := by
      show 4 - depth = (4 - (depth + 1)) + 1
      omega
    rw [trie__burst_data_node, hf, burst_rec, if_neg h4,
      if_pos (show depth < TRIE_MAX_DEPTH - 1 by show depth < 4; omega)]
    dsimp only
    split
    · exact ⟨_, _, _, _, _, _, _, _, rfl⟩
    · exact ⟨_, _, _, _, _, _, _, _, rfl⟩

/-- C2 counterexample: bursting a full node holding the 32 values
0x2001..0x2020 (which all share child 1 at depth 0, so the child becomes full
and is recursively burst) does NOT behave as a recursive burst of that child
at `depth + 2`: trie.c recurses at `current_depth + 1`, and the two
disagree on this input. -/
theorem C2_counterexample :
    trie__burst_data_node (((List.range 32).map (fun i => 0x2001 + i)).reverse) 0 ≠
      burst_variant_depth2 (((List.range 32).map (fun i => 0x2001 + i)).reverse) 0 := by
  decide

/-- C2 (amended): during `burst(fullSparseNode, depth)` with data-node
children (`depth < TRIE_MAX_DEPTH - 1`), when all 32 redistributed values map
to the same child index `c` the burst detects this (the placement lands in
slot 0 of the child) and recursively bursts that specific child — passing
`depth + 1`, the child's own depth, as the depth argument (the claim's
`depth + 2` is what that recursive burst in turn redistributes into); this is
the only source of recursion: when two redistributed values map to different
children, every child of the result is a plain (unburst) data node. -/
theorem C2_burst_recursion (depth : Nat) (asc : List Nat) (c : Nat)
    (hd : depth < 4) (hsort : asc.Sorted (· ≤ ·)) (hnz : ∀ x ∈ asc, x ≠ 0)
    (hlen : asc.length = 32) :
    ((∀ v ∈ asc, IDX_FROM_VALUE v depth = c) →
      trie__burst_data_node asc.reverse depth =
        mkTravel (((burst_data_fold depth asc).1.map Node.data).set c
          (trie__burst_data_node asc.reverse (depth + 1)))) ∧
    ((∃ v1 ∈ asc, ∃ v2 ∈ asc, IDX_FROM_VALUE v1 depth ≠ IDX_FROM_VALUE v2 depth) →
      ∀ c', c' < 8 → ∃ slots,
        getLink (trie__burst_data_node asc.reverse depth) c' = .data slots) := by
  have hrev : (asc.reverse).reverse = asc := List.reverse_reverse asc
  obtain ⟨hslen, hget, hdisj⟩ := burst_data_fold_spec depth asc hsort hnz (by omega)
  constructor
  · intro hallc
    have hne : asc ≠ [] := by
      intro he
      rw [he] at hlen
      simp at hlen
    obtain ⟨v0, hv0⟩ := List.exists_mem_of_ne_nil asc hne
    have hc8 : c < 8 := by
      rw [← hallc v0 hv0]
      exact idx_lt8 v0 depth
    have hfc : asc.filter (fun w => IDX_FROM_VALUE w depth = c) = asc := by
      rw [List.filter_eq_self]
      intro a ha
      simp [hallc a ha]
    rcases hdisj with ⟨_, hsmall⟩ | ⟨c'', hc8'', hsome'', hfull'', _⟩
    · exact absurd (hsmall c hc8) (by rw [hfc, hlen]; omega)
    · have hfc'' : asc.filter (fun w => IDX_FROM_VALUE w depth = c'') = asc :=
        List.Sublist.eq_of_length (List.filter_sublist _) (by omega)
      have hcc : c'' = c := by
        have hv0' : v0 ∈ asc.filter (fun w => IDX_FROM_VALUE w depth = c'') := by
          rw [hfc'']
          exact hv0
        have := List.of_mem_filter hv0'
        simp at this
        rw [← this, hallc v0 hv0]
      subst hcc
      have hform := burst_unfold_some asc.reverse depth c'' hd
        (by rw [hrev]; exact hsome'')
      rw [hform, hrev]
      congr 2
      rw [hget c'' hc8'', hfc'', fromAsc_full asc hlen]
  · intro ⟨v1, hv1, v2, hv2, hne⟩ c' hc'
    have hnotfull : ∀ c0, ¬ (asc.filter (fun w => IDX_FROM_VALUE w depth = c0)).length
        = 32 := by
      intro c0 hfull
      have hfc : asc.filter (fun w => IDX_FROM_VALUE w depth = c0) = asc :=
        List.Sublist.eq_of_length (List.filter_sublist _) (by omega)
      have h1 : v1 ∈ asc.filter (fun w => IDX_FROM_VALUE w depth = c0) := by
        rw [hfc]
        exact hv1
      have h2 : v2 ∈ asc.filter (fun w => IDX_FROM_VALUE w depth = c0) := by
        rw [hfc]
        exact hv2
      have e1 := List.of_mem_filter h1
      have e2 := List.of_mem_filter h2
      simp at e1 e2
      rw [e1, e2] at hne
      exact hne rfl
    have hnone : (burst_data_fold depth asc).2 = none := by
      rcases hdisj with ⟨h, _⟩ | ⟨c0, _, _, hfull, _⟩
      · exact h
      · exact absurd hfull (hnotfull c0)
    have hform := burst_unfold_none asc.reverse depth hd (by rw [hrev]; exact hnone)
    rw [hform, hrev, getLink_mkTravel _ _ hc',
      getD_map_fn Node.data _ _ _ (by omega)]
    exact ⟨_, rfl⟩

theorem C2_burst_recursion_witness :
    ∃ slots,
      getLink (trie__burst_data_node
        ([1, 2, 3, 4, 5, 6, 7, 8, 9, 10, 11, 12, 13, 14, 15, 16, 17, 18, 19, 20, 21,
          22, 23, 24, 25, 26, 27, 28, 29, 30, 31, 8193].reverse) 0) 3 = .data slots :=
  (C2_burst_recursion 0
      [1, 2, 3, 4, 5, 6, 7, 8, 9, 10, 11, 12, 13, 14, 15, 16, 17, 18, 19, 20, 21, 22,
        23, 24, 25, 26, 27, 28, 29, 30, 31, 8193] 0
      (by decide) (by decide) (by decide) (by decide)).2
    ⟨1, by decide, 8193, by decide, by decide⟩ 3 (by decide)


/-- C6: `burst(fullSparseNode, depth)` preserves content and fans out fully:
bursting a full, well-ranged, sorted data node yields a travel node all 8 of
whose slots hold children built as part of the burst (never lazily);
enumerating child `c` at its own prefix yields exactly the sublist of the 32
stored values whose routing index `IDX_FROM_VALUE v depth` equals `c` (each
value lands in exactly its addressed child), and concatenating the 8
children's enumerations in slot order restores the 32 values exactly, so the
multiset union of the children's contents equals the node's prior content. -/
theorem C6_burst_contents (depth p : Nat) (asc : List Nat) (hd : depth < 5)
    (hal : p % sliceW depth = 0) (hp : p < 65536)
    (hsort : asc.Sorted (· ≤ ·))
    (hmem : ∀ v ∈ asc, v ≠ 0 ∧ p ≤ v ∧ v < p + sliceW depth)
    (hlen : asc.length = 32) :
    (∃ c0 c1 c2 c3 c4 c5 c6 c7, trie__burst_data_node (fromAsc asc) depth =
      Node.travel c0 c1 c2 c3 c4 c5 c6 c7) ∧
    (∀ c, c < 8 →
      trie__print_subtrie (getLink (trie__burst_data_node (fromAsc asc) depth) c)
        (p + c * sliceW (depth + 1)) (depth + 1) =
      asc.filter (fun v => IDX_FROM_VALUE v depth = c)) ∧
    (List.range 8).flatMap (fun c =>
      trie__print_subtrie (getLink (trie__burst_data_node (fromAsc asc) depth) c)
        (p + c * sliceW (depth + 1)) (depth + 1)) = asc := by
  obtain ⟨hwf, hcnt⟩ := burst_spec depth p asc hd hal hp hsort hmem hlen
  obtain ⟨c0, c1, c2, c3, c4, c5, c6, c7, hB⟩ :=
    burst_is_travel (fromAsc asc) depth hd
  rw [hB] at hwf hcnt ⊢
  have hd4 : depth ≤ 4 := by omega
  have hsucc := sliceW_succ depth hd4
  have hWpos := sliceW_pos (depth + 1)
  refine ⟨⟨c0, c1, c2, c3, c4, c5, c6, c7, rfl⟩, ?_, ?_⟩
  · intro c hc
    have hcmul : c * sliceW (depth + 1) ≤ 7 * sliceW (depth + 1) :=
      Nat.mul_le_mul_right _ (by omega)
    have hwfc := NodeWF_getLink c0 c1 c2 c3 c4 c5 c6 c7 depth p c hwf hc
    obtain ⟨hps, hpm, hpc⟩ := print_spec _ (depth + 1) (p + c * sliceW (depth + 1)) hwfc
    refine List.eq_of_perm_of_sorted (List.perm_iff_count.mpr ?_) hps (hsort.filter _)
    intro w
    by_cases hin : w ≠ 0 ∧ p + c * sliceW (depth + 1) ≤ w ∧
        w < p + c * sliceW (depth + 1) + sliceW (depth + 1)
    · obtain ⟨hw0, hwl, hwr⟩ := hin
      have hidx : IDX_FROM_VALUE w depth = c :=
        (idx_eq_iff depth p w c hd4 hal (by omega) (by omega)).mpr ⟨hwl, hwr⟩
      rw [hpc w hw0 hwl hwr, List.count_filter (by simpa using hidx)]
      have h2 := nodeCount_getLink_idx c0 c1 c2 c3 c4 c5 c6 c7 depth w
      rw [hidx] at h2
      rw [← h2]
      exact hcnt w hw0 (by omega) (by omega)
    · have hz1 : (trie__print_subtrie
          (getLink (Node.travel c0 c1 c2 c3 c4 c5 c6 c7) c)
          (p + c * sliceW (depth + 1)) (depth + 1)).count w = 0 := by
        apply List.count_eq_zero_of_not_mem
        intro hmemp
        obtain ⟨hx0, hxl, hxr⟩ := hpm w hmemp
        exact hin ⟨by omega, hxl, hxr⟩
      have hz2 : (asc.filter (fun v => IDX_FROM_VALUE v depth = c)).count w = 0 := by
        apply List.count_eq_zero_of_not_mem
        intro hmemf
        obtain ⟨hwa, hwp⟩ := List.mem_filter.mp hmemf
        obtain ⟨hw0, hwl, hwr⟩ := hmem w hwa
        have hidx : IDX_FROM_VALUE w depth = c := by simpa using hwp
        have hr := (idx_eq_iff depth p w c hd4 hal hwl hwr).mp hidx
        exact hin ⟨hw0, hr.1, hr.2⟩
      rw [hz1, hz2]
  · rw [← print_travel_flat c0 c1 c2 c3 c4 c5 c6 c7 p depth hd4]
    obtain ⟨hBs, hBm, hBc⟩ := print_spec (Node.travel c0 c1 c2 c3 c4 c5 c6 c7) depth p hwf
    refine List.eq_of_perm_of_sorted (List.perm_iff_count.mpr ?_) hBs hsort
    intro w
    by_cases hin : w ≠ 0 ∧ p ≤ w ∧ w < p + sliceW depth
    · obtain ⟨hw0, hwl, hwr⟩ := hin
      rw [hBc w hw0 hwl hwr]
      exact hcnt w hw0 hwl hwr
    · have hz1 : (trie__print_subtrie
          (Node.travel c0 c1 c2 c3 c4 c5 c6 c7) p depth).count w = 0 := by
        apply List.count_eq_zero_of_not_mem
        intro hmemp
        obtain ⟨hx0, hxl, hxr⟩ := hBm w hmemp
        exact hin ⟨by omega, hxl, hxr⟩
      have hz2 : asc.count w = 0 := by
        apply List.count_eq_zero_of_not_mem
        intro hmemw
        exact hin (hmem w hmemw)
      rw [hz1, hz2]

theorem C6_burst_contents_witness :
    ∃ c0 c1 c2 c3 c4 c5 c6 c7,
      trie__burst_data_node (fromAsc ((List.range 32).map (fun i => i + 1))) 0 =
        Node.travel c0 c1 c2 c3 c4 c5 c6 c7 :=
  (C6_burst_contents 0 0 ((List.range 32).map (fun i => i + 1)) (by decide) (by decide)
    (by decide) (by decide) (by decide) (by decide)).1

/-- C10: the burst redistribution is placement-safe because the 32 values are
processed from slot 31 toward slot 0, i.e. in ascending value order: when `v`
is redistributed after the (smaller-or-equal) values `pre`, the inner scan on
the child addressed by `v` walks over the `k` values already routed to that
child and stops at slot `31 - k` — inside the child's 32 slots and holding 0,
so no occupied slot is ever overwritten even though nothing is shifted.  The
scheme really is order-dependent: placing 5 into a fresh child and then the
smaller 3 stops on the slot occupied by 5 and overwrites it. -/
theorem C10_place_safety (depth : Nat) (pre post : List Nat) (v : Nat)
    (hsort : (pre ++ v :: post).Sorted (· ≤ ·))
    (hnz : ∀ x ∈ pre ++ v :: post, x ≠ 0)
    (hlen : (pre ++ v :: post).length ≤ 32) :
    (place_scan ((burst_data_fold depth pre).1.getD (IDX_FROM_VALUE v depth) []) v =
        31 - (pre.filter (fun w =>
          IDX_FROM_VALUE w depth = IDX_FROM_VALUE v depth)).length ∧
      place_scan ((burst_data_fold depth pre).1.getD (IDX_FROM_VALUE v depth) []) v < 32 ∧
      ((burst_data_fold depth pre).1.getD (IDX_FROM_VALUE v depth) []).getD
        (place_scan ((burst_data_fold depth pre).1.getD (IDX_FROM_VALUE v depth) []) v)
        0 = 0) ∧
    ((place_no_shift empty_data_slots 5).1.count 5 = 1 ∧
      (place_no_shift (place_no_shift empty_data_slots 5).1 3).1.count 5 = 0) := by
  have hsort' : pre.Sorted (· ≤ ·) := (List.pairwise_append.mp hsort).1
  have hle : ∀ x ∈ pre, x ≤ v :=
    fun x hx => (List.pairwise_append.mp hsort).2.2 x hx v (by simp)
  have hnz' : ∀ x ∈ pre, x ≠ 0 := fun x hx => hnz x (by simp [hx])
  have hprelen : pre.length ≤ 31 := by
    rw [List.length_append, List.length_cons] at hlen
    omega
  obtain ⟨hslen, hget, hnb⟩ := burst_data_fold_spec depth pre hsort' hnz' (by omega)
  have hc := idx_lt8 v depth
  rw [hget _ hc]
  set fpre : List Nat :=
    pre.filter (fun w => IDX_FROM_VALUE w depth = IDX_FROM_VALUE v depth) with hfpre
  have hflen : fpre.length ≤ 31 := le_trans (List.length_filter_le _ _) hprelen
  have hpp := place_no_shift_fromAsc fpre v (by omega)
    (fun x hx => hnz' x (List.mem_of_mem_filter hx))
    (fun x hx => hle x (List.mem_of_mem_filter hx))
  have hscan : place_scan (fromAsc fpre) v = 31 - fpre.length :=
    congrArg Prod.snd hpp
  refine ⟨⟨hscan, ?_, ?_⟩, by decide, by decide⟩
  · omega
  · rw [hscan, fromAsc_getD_low fpre _ (by omega)]

theorem C10_place_safety_witness :
    place_scan ((burst_data_fold 0 [1, 2]).1.getD (IDX_FROM_VALUE 3 0) []) 3 < 32 ∧
    ((burst_data_fold 0 [1, 2]).1.getD (IDX_FROM_VALUE 3 0) []).getD
      (place_scan ((burst_data_fold 0 [1, 2]).1.getD (IDX_FROM_VALUE 3 0) []) 3) 0 = 0 :=
  (C10_place_safety 0 [1, 2] [] 3 (by decide) (by decide) (by decide)).1.2

end BucketTree
